import Mathlib

/-!
Verification of the dice cog (`cogs5e/dice.py`): inline-expression extraction
(locator, context-window resolver with its two clamping passes), the advantage
token stripper, the inline evaluation pipeline, the batch roll aggregator and
the roll command's easter egg.  Python strings are modelled as `List Char`,
indices as `Nat`, and the external `d20` roll engine as oracle parameters.
-/

set_option maxHeartbeats 1000000
set_option maxRecDepth 8000

namespace Avrae

/-! ### Python string primitives over `List Char` -/

/-- Whitespace test used by Python `str.split`/`strip` (ASCII fragment). -/
def isWsC (c : Char) : Bool := c.isWhitespace

/-- Python slice `content[i:j]` (callers use `i ≤ j`; empty otherwise). -/
def slice (s : List Char) (i j : Nat) : List Char := (s.drop i).take (j - i)

/-- Python `str.lstrip()`. -/
def lstrip (s : List Char) : List Char := s.dropWhile isWsC

/-- Python `str.rstrip()`. -/
def rstrip (s : List Char) : List Char := (s.reverse.dropWhile isWsC).reverse

/-- Python `str.strip()`. -/
def pyStrip (s : List Char) : List Char := rstrip (lstrip s)

/-- Negation of `isWsC`: a token character. -/
def notWs (c : Char) : Bool := !isWsC c

/-- Python `str.split(maxsplit=m)`: split on whitespace runs at most `m`
times, discarding leading whitespace; after the `m`-th split the remainder is
kept verbatim; a string of only whitespace yields `[]`. -/
def pySplit (s : List Char) : Nat → List (List Char)
  | 0 =>
    let s' := s.dropWhile isWsC
    if s' = [] then [] else [s']
  | m + 1 =>
    let s' := s.dropWhile isWsC
    if s' = [] then []
    else s'.takeWhile notWs :: pySplit (s'.dropWhile notWs) m

/-- Python `str.rsplit(maxsplit=m)`: splitting from the right. -/
def pyRsplit (s : List Char) (m : Nat) : List (List Char) :=
  ((pySplit s.reverse m).map List.reverse).reverse

/-- Number of whitespace-separated tokens of a string (`len(s.split())`);
`s.length` splits always suffice. -/
def tokensCount (s : List Char) : Nat := (pySplit s s.length).length

/-- Is the string empty or whitespace-initial?  (The separator state used by
the token-counting lemmas.) -/
def headWsOrNil : List Char → Bool
  | [] => true
  | c :: _ => isWsC c

/-- Is the string empty or whitespace-final? -/
def lastWsOrNil (s : List Char) : Bool := headWsOrNil s.reverse

/-- Remove one leading ellipsis marker, as introduced by
`_find_inline_exprs`. -/
def stripDotsPre (t : List Char) : List Char :=
  if ['.', '.', '.'].isPrefixOf t then t.drop 3 else t

/-- Remove one trailing ellipsis marker. -/
def stripDotsSuf (t : List Char) : List Char :=
  if ['.', '.', '.'].isSuffixOf t then t.take (t.length - 3) else t

/-- Does `pat` occur in `s` at index `i`? -/
def occursAt (pat s : List Char) (i : Nat) : Bool := pat.isPrefixOf (s.drop i)

def strFindFrom (s pat : List Char) : Nat → Nat → Option Nat
  | _, 0 => none
  | i, fuel + 1 => if occursAt pat s i then some i else strFindFrom s pat (i + 1) fuel

/-- Python `content.find(pat, start)`, with `none` for `-1` (nonempty `pat`). -/
def strFind (s pat : List Char) (start : Nat) : Option Nat :=
  strFindFrom s pat start (s.length + 1 - start)

/-! ### `_find_roll_expr_indices`: the inline-expression locator -/

def openPat : List Char := ['[', '[']

def closePat : List Char := [']', ']']

/-- Loop body of `_find_roll_expr_indices`: repeatedly find `[[` from the end
of the previous inner match, then `]]` from there; a dangling opener stops the
scan.  The fuel (`s.length + 1` at top level) strictly dominates the number of
iterations, each of which advances the scan position. -/
def findExprsAux (s : List Char) : Nat → Nat → List (Nat × Nat × Nat × Nat)
  | 0, _ => []
  | fuel + 1, e =>
    match strFind s openPat e with
    | none => []
    | some start =>
      match strFind s closePat start with
      | none => []
      | some ei => (start, start + 2, ei, ei + 2) :: findExprsAux s fuel ei

/-- `_find_roll_expr_indices(content)`: tuples `(start, expr_start, expr_end, end)`. -/
def findRollExprIndices (s : List Char) : List (Nat × Nat × Nat × Nat) :=
  findExprsAux s (s.length + 1) 0

/-! ### `_find_inline_exprs`: the context-window resolver -/

/-- One row of the `idxs` list of `_find_inline_exprs`:
`((before_idx, start), (expr_start, expr_end), (end, after_idx))`. -/
structure CandIdx where
  beforeIdx : Nat
  start : Nat
  exprStart : Nat
  exprEnd : Nat
  endIdx : Nat
  afterIdx : Nat
deriving DecidableEq, Repr

/-- First loop of `_find_inline_exprs`: raw context windows for one candidate,
with the 128-char cap and the word trim (`max(0, start - max_context_len)` is
Nat truncated subtraction). -/
def mkWindow (contextBefore contextAfter maxContextLen : Nat) (content : List Char)
    (r : Nat × Nat × Nat × Nat) : CandIdx :=
  let start := r.1
  let exprStart := r.2.1
  let exprEnd := r.2.2.1
  let endo := r.2.2.2
  let beforeIdx0 := start - maxContextLen
  let beforeFragment := slice content beforeIdx0 start
  let beforeBits := pyRsplit beforeFragment contextBefore
  let beforeIdx := if contextBefore < beforeBits.length
    then beforeIdx0 + (beforeBits.headD []).length else beforeIdx0
  let afterIdx0 := min content.length (endo + maxContextLen)
  let afterFragment := slice content endo afterIdx0
  let afterBits := pySplit afterFragment contextAfter
  let afterIdx := if contextAfter < afterBits.length
    then afterIdx0 - (afterBits.getLastD []).length else afterIdx0
  ⟨beforeIdx, start, exprStart, exprEnd, endo, afterIdx⟩

/-- The `idxs` list after the first loop of `_find_inline_exprs`. -/
def rawIdxs (cb ca mcl : Nat) (content : List Char) : List CandIdx :=
  (findRollExprIndices content).map (mkWindow cb ca mcl content)

/-- Tail of the "start boundaries" pass: `prev` is the (already updated)
previous row; `idxs[i] = max(before_idx, idxs[i-1][2][0])` reads the previous
row's `end`, a field this pass never changes. -/
def clampStartsAux : CandIdx → List CandIdx → List CandIdx
  | _, [] => []
  | prev, cur :: rest =>
    let cur' := { cur with beforeIdx := max cur.beforeIdx prev.endIdx }
    cur' :: clampStartsAux cur' rest

/-- "start boundaries" pass of `_find_inline_exprs` (forward clamp). -/
def clampStarts : List CandIdx → List CandIdx
  | [] => []
  | first :: rest => first :: clampStartsAux first rest

/-- "end boundaries" pass of `_find_inline_exprs` (backward clamp):
`idxs[i] = min(after_idx, idxs[i+1][0][0])` reads the next row's
`before_idx`, a field this pass never changes. -/
def clampEnds : List CandIdx → List CandIdx
  | [] => []
  | [last] => [last]
  | cur :: next :: rest =>
    { cur with afterIdx := min cur.afterIdx next.beforeIdx } :: clampEnds (next :: rest)

/-- The `idxs` list after both clamping passes. -/
def clampedIdxs (cb ca mcl : Nat) (content : List Char) : List CandIdx :=
  clampEnds (clampStarts (rawIdxs cb ca mcl content))

/-- Final loop of `_find_inline_exprs`: materialize
`(expr, context_before, context_after)` with strips and ellipsis markers. -/
def windowTriple (content : List Char) (w : CandIdx) :
    List Char × List Char × List Char :=
  let contextB := lstrip (slice content w.beforeIdx w.start)
  let expr := pyStrip (slice content w.exprStart w.exprEnd)
  let contextA := rstrip (slice content w.endIdx w.afterIdx)
  let contextB := if 0 < w.beforeIdx then '.' :: '.' :: '.' :: contextB else contextB
  let contextA := if w.afterIdx < content.length then contextA ++ ['.', '.', '.'] else contextA
  (expr, contextB, contextA)

/-- `_find_inline_exprs(content, context_before, context_after, max_context_len)`. -/
def findInlineExprsWith (cb ca mcl : Nat) (content : List Char) :
    List (List Char × List Char × List Char) :=
  (clampedIdxs cb ca mcl content).map (windowTriple content)

/-- `_find_inline_exprs(content)` with the default parameters `5, 2, 128`. -/
def findInlineExprs (content : List Char) : List (List Char × List Char × List Char) :=
  findInlineExprsWith 5 2 128 content

/-! ### `_string_search_adv`: the advantage token stripper -/

/-- `d20.AdvType`. -/
inductive AdvType where
  | NONE
  | ADV
  | DIS
deriving DecidableEq, Repr

/-- Does `tok` match at `p` as in `(^|\s+)tok(\s+|$)`: preceded by start or
whitespace and followed by whitespace or end? -/
def wholeWordAt (tok s : List Char) (p : Nat) : Bool :=
  (decide (p = 0) || isWsC (s.getD (p - 1) 'a')) && tok.isPrefixOf (s.drop p) &&
    (decide (s.length = p + tok.length) || isWsC (s.getD (p + tok.length) 'a'))

/-- `re.search(r'(^|\s+)tok(\s+|$)', s) is not None`. -/
def hasWholeWord (tok s : List Char) : Bool :=
  (List.range (s.length + 1)).any (wholeWordAt tok s)

/-- One attempt of the pattern `(adv|dis)(\s+|$)` at the head of `s`: on a
match, return the remainder after the matched text (token plus the following
whitespace run, or end of string). -/
def matchAdvDis (s : List Char) : Option (List Char) :=
  match s with
  | 'a' :: 'd' :: 'v' :: rest =>
    if rest = [] then some []
    else if isWsC (rest.headD 'a') then some (rest.dropWhile isWsC) else none
  | 'd' :: 'i' :: 's' :: rest =>
    if rest = [] then some []
    else if isWsC (rest.headD 'a') then some (rest.dropWhile isWsC) else none
  | _ => none

/-- Left-to-right scan of `re.sub(r'(adv|dis)(\s+|$)', '', s)`; every match
consumes at least one character, so `s.length` fuel always suffices. -/
def subAdvDisAux : Nat → List Char → List Char
  | 0, s => s
  | _ + 1, [] => []
  | fuel + 1, c :: rest =>
    match matchAdvDis (c :: rest) with
    | some rest' => subAdvDisAux fuel rest'
    | none => c :: subAdvDisAux fuel rest

/-- `re.sub(r'(adv|dis)(\s+|$)', '', s)`. -/
def subAdvDis (s : List Char) : List Char := subAdvDisAux s.length s

def advTok : List Char := ['a', 'd', 'v']

def disTok : List Char := ['d', 'i', 's']

/-- `_string_search_adv(rollstr)`. -/
def stringSearchAdv (rollstr : List Char) : List Char × AdvType :=
  if hasWholeWord advTok rollstr || hasWholeWord disTok rollstr then
    let adv := if hasWholeWord advTok rollstr then AdvType.ADV else AdvType.DIS
    (subAdvDis rollstr, adv)
  else (rollstr, AdvType.NONE)

/-! ### `Dice.do_inline_rolls`: the inline evaluation pipeline

The external `d20` roller is modelled by pairing each extracted triple with
the outcome its `roller.roll` call produced. -/

/-- Outcome of one `roller.roll(expr, allow_comments=True)` call. -/
inductive RollOutcome where
  | success (result : List Char)
  | rollError (msg : List Char)
  | syntaxError
deriving DecidableEq, Repr

/-- `str.replace('\n', ' ')`. -/
def replaceNl (s : List Char) : List Char := s.map (fun c => if c = '\n' then ' ' else c)

/-- The `out` list built by the loop of `do_inline_rolls`: a
`RollSyntaxError` contributes nothing, a `RollError` contributes
`f"{context_before}({e}){context_after}"`, a success contributes
`f"{context_before}({result.result}){context_after}"`. -/
def inlineOutLines :
    List ((List Char × List Char × List Char) × RollOutcome) → List (List Char)
  | [] => []
  | ((_, contextBefore, contextAfter), o) :: rest =>
    let cb := replaceNl contextBefore
    let ca := replaceNl contextAfter
    match o with
    | .syntaxError => inlineOutLines rest
    | .rollError msg => (cb ++ '(' :: (msg ++ ')' :: ca)) :: inlineOutLines rest
    | .success res => (cb ++ '(' :: (res ++ ')' :: ca)) :: inlineOutLines rest

/-- `do_inline_rolls`: `none` models "no reply is sent", otherwise the reply
is the lines joined with newlines. -/
def doInlineRolls
    (batch : List ((List Char × List Char × List Char) × RollOutcome)) :
    Option (List Char) :=
  let out := inlineOutLines batch
  if out = [] then none else some (List.intercalate ['\n'] out)

/-! ### `Dice._roll_many`: the batch roll aggregator

The parsed expression and the stochastic roller sharing one
`PersistentRollContext` are modelled by oracles: `render i` and `total i` are
`str(results[i])` and `results[i].total` of the `i`-th roll. -/

/-- `str(n)` for a natural number. -/
def natToChars (n : Nat) : List Char := Nat.toDigits 10 n

/-- `str(i)` for a Python int. -/
def intToChars (i : Int) : List Char :=
  if i < 0 then '-' :: natToChars i.natAbs else natToChars i.natAbs

structure RollManyInput where
  iterations : Int
  dc : Option Int
  comment : Option (List Char)
  render : Nat → List Char
  total : Nat → Int

/-- Result of `_roll_many`: either the early rejection reply, or the normal
reply together with the per-iteration results `(str(res), res.total)`. -/
inductive RollManyResult where
  | rejected (msg : List Char)
  | ok (results : List (List Char × Int)) (out : List Char)
deriving DecidableEq

def tooManyMsg : List Char := "Too many or too few iterations.".toList

def rmResults (inp : RollManyInput) : List (List Char × Int) :=
  (List.range inp.iterations.toNat).map (fun i => (inp.render i, inp.total i))

def rmSuccesses (inp : RollManyInput) : Nat :=
  match inp.dc with
  | none => 0
  | some dc => ((rmResults inp).filter (fun r => dc ≤ r.2)).length

def rmTotalSum (inp : RollManyInput) : Int := ((rmResults inp).map (·.2)).sum

/-- The header, including the `ast.comment` prefix when present. -/
def rmHeader (inp : RollManyInput) : List Char :=
  let header :=
    match inp.dc with
    | none => "Rolling ".toList ++ natToChars inp.iterations.toNat ++ " iterations...".toList
    | some dc => "Rolling ".toList ++ natToChars inp.iterations.toNat ++
        " iterations, DC ".toList ++ intToChars dc ++ "...".toList
  match inp.comment with
  | none => header
  | some c => c ++ ':' :: ' ' :: header

def rmFooter (inp : RollManyInput) : List Char :=
  match inp.dc with
  | none => intToChars (rmTotalSum inp) ++ " total.".toList
  | some _ => natToChars (rmSuccesses inp) ++ " successes, ".toList ++
      intToChars (rmTotalSum inp) ++ " total.".toList

/-- `f"{header}\n{result_strs}\n{footer}"`. -/
def rmFullOut (inp : RollManyInput) : List Char :=
  rmHeader inp ++ '\n' :: (List.intercalate ['\n'] ((rmResults inp).map (·.1)) ++
    '\n' :: rmFooter inp)

/-- The degraded output used when the rendered reply exceeds 1500 chars. -/
def rmDegradedOut (inp : RollManyInput) : List Char :=
  rmHeader inp ++ '\n' :: (((rmResults inp).headD ([], 0)).1 ++
    '\n' :: ('[' :: natToChars ((rmResults inp).length - 1) ++
      " results omitted for output size.]".toList ++ '\n' :: rmFooter inp))

/-- The reply text of a non-rejected `_roll_many` call. -/
def rmOut (inp : RollManyInput) : List Char :=
  if 1500 < (rmFullOut inp).length then rmDegradedOut inp else rmFullOut inp

/-- `Dice._roll_many(ctx, iterations, roll_str, dc, adv)`. -/
def rollMany (inp : RollManyInput) : RollManyResult :=
  if inp.iterations < 1 ∨ 100 < inp.iterations then .rejected tooManyMsg
  else .ok (rmResults inp) (rmOut inp)

/-! ### `Dice.rollCmd`: the roll command and its easter egg -/

/-- Observable effects of one `rollCmd` invocation. -/
structure RollCmdEffects where
  sent : List Char
  deletedMessage : Bool
  statsIncremented : Bool
  engineInvoked : Bool
deriving DecidableEq, Repr

def easterEggMsg : List Char :=
  "What do you expect me to do, destroy the universe?".toList

def gameDiePrefix (mention : List Char) : List Char :=
  mention ++ "  :game_die:\n".toList

/-- `Dice.rollCmd(ctx, rollStr)`; `render cleaned adv` and `total cleaned adv`
model `str(res)` and `res.total` of the `d20.roll` call. -/
def rollCmd (mention : List Char) (rollStr : List Char)
    (render : List Char → AdvType → List Char)
    (total : List Char → AdvType → Int) : RollCmdEffects :=
  if rollStr = "0/0".toList then
    { sent := easterEggMsg, deletedMessage := false, statsIncremented := false,
      engineInvoked := false }
  else
    let stripped := stringSearchAdv rollStr
    let res := render stripped.1 stripped.2
    let out := gameDiePrefix mention ++ res
    let out := if 1999 < out.length then
        gameDiePrefix mention ++ res.take 100 ++ "...\n**Total**: ".toList ++
          intToChars (total stripped.1 stripped.2)
      else out
    { sent := out, deletedMessage := true, statsIncremented := true,
      engineInvoked := true }

/-! ### Well-formed texts for the locator claim

`mkText g0 ps dang` is the general shape of a text containing `ps.length`
disjoint well-formed `[[...]]` pairs separated by bracket-free prose, with an
optional trailing unmatched `[[` opener. -/

def mkPairs : List (List Char × List Char) → List Char
  | [] => []
  | (e, g) :: rest => '[' :: '[' :: (e ++ ']' :: ']' :: (g ++ mkPairs rest))

def dangSuffix : Option (List Char) → List Char
  | none => []
  | some t => '[' :: '[' :: t

def mkText (g0 : List Char) (ps : List (List Char × List Char))
    (dang : Option (List Char)) : List Char :=
  g0 ++ mkPairs ps ++ dangSuffix dang

/-- The candidate ranges the locator should report for `mkPairs ps` starting
at absolute position `base`. -/
def expectedRanges (base : Nat) : List (List Char × List Char) → List (Nat × Nat × Nat × Nat)
  | [] => []
  | (e, g) :: rest =>
    (base, base + 2, base + 2 + e.length, base + 4 + e.length) ::
      expectedRanges (base + 4 + e.length + g.length) rest

/-- Fallback row used with `List.getD`. -/
def dfltCand : CandIdx := ⟨0, 0, 0, 0, 0, 0⟩

/-- Well-formedness of one context-window row of a text of length `len`. -/
def CandWF (len : Nat) (x : CandIdx) : Prop :=
  x.beforeIdx ≤ x.start ∧ x.start + 4 ≤ x.endIdx ∧ x.endIdx ≤ x.afterIdx ∧
    x.afterIdx ≤ len

/-- Ordering of two rows sufficient for window disjointness; transitive. -/
def Rfull (x y : CandIdx) : Prop :=
  x.afterIdx ≤ y.beforeIdx ∧ x.beforeIdx ≤ y.beforeIdx ∧ x.start ≤ y.start ∧
    x.endIdx ≤ y.endIdx ∧ x.endIdx ≤ y.start

instance : IsTrans CandIdx Rfull :=
  ⟨fun _ _ _ h1 h2 =>
    ⟨le_trans h1.1 h2.2.1, le_trans h1.2.1 h2.2.1, le_trans h1.2.2.1 h2.2.2.1,
      le_trans h1.2.2.2.1 h2.2.2.2.1, le_trans h1.2.2.2.2 h2.2.2.1⟩⟩

/-! ### Lemmas about the clamping passes -/

theorem clampStartsAux_length : ∀ (l : List CandIdx) (prev : CandIdx),
    (clampStartsAux prev l).length = l.length
  | [], _ => rfl
  | _ :: rest, prev => by
    simp [clampStartsAux, clampStartsAux_length rest]

theorem clampStarts_length (l : List CandIdx) : (clampStarts l).length = l.length := by
  cases l with
  | nil => rfl
  | cons first rest => simp [clampStarts, clampStartsAux_length]

theorem clampEnds_length : ∀ (l : List CandIdx), (clampEnds l).length = l.length
  | [] => rfl
  | [_] => rfl
  | _ :: next :: rest => by
    simp [clampEnds, clampEnds_length (next :: rest)]

/-- Element `j` of the forward pass over `prev :: l`: the new `before_idx` is
the max of the raw one and the previous row's (unchanged) `end`. -/
theorem clampStartsAux_getD (d : CandIdx) :
    ∀ (l : List CandIdx) (prev : CandIdx) (j : Nat), j < l.length →
      (clampStartsAux prev l).getD j d =
        { l.getD j d with
          beforeIdx := max ((l.getD j d).beforeIdx)
            (if j = 0 then prev.endIdx else (l.getD (j - 1) d).endIdx) }
  | [], _, j, h => by simp at h
  | cur :: rest, prev, 0, _ => by simp [clampStartsAux]
  | cur :: rest, prev, j + 1, h => by
    have ih := clampStartsAux_getD d rest { cur with beforeIdx := max cur.beforeIdx prev.endIdx }
      j (by simpa using h)
    rw [clampStartsAux]
    simp only [List.getD_cons_succ]
    rw [ih]
    cases j with
    | zero => simp
    | succ k => simp

theorem chain'_endLeBefore_clampStartsAux :
    ∀ (l : List CandIdx) (prev : CandIdx),
      List.Chain' (fun x y => x.endIdx ≤ y.beforeIdx) (prev :: clampStartsAux prev l)
  | [], prev => by simp [clampStartsAux]
  | cur :: rest, prev => by
    rw [clampStartsAux]
    exact List.chain'_cons.mpr
      ⟨Nat.le_max_right _ _, chain'_endLeBefore_clampStartsAux rest _⟩

theorem chain'_endLeBefore_clampStarts (l : List CandIdx) :
    List.Chain' (fun x y => x.endIdx ≤ y.beforeIdx) (clampStarts l) := by
  cases l with
  | nil => simp [clampStarts]
  | cons first rest =>
    rw [clampStarts]
    exact chain'_endLeBefore_clampStartsAux rest first

theorem clampEnds_head?_beforeIdx (x : CandIdx) (xs : List CandIdx) :
    ∃ z, (clampEnds (x :: xs)).head? = some z ∧ z.beforeIdx = x.beforeIdx := by
  cases xs with
  | nil => exact ⟨x, rfl, rfl⟩
  | cons y ys => exact ⟨_, rfl, rfl⟩

theorem chain'_endLeBefore_clampEnds :
    ∀ (l : List CandIdx), List.Chain' (fun x y => x.endIdx ≤ y.beforeIdx) l →
      List.Chain' (fun x y => x.endIdx ≤ y.beforeIdx) (clampEnds l)
  | [], _ => by simp [clampEnds]
  | [x], _ => by simp [clampEnds]
  | x :: y :: rest, h => by
    rw [List.chain'_cons] at h
    rw [clampEnds, List.chain'_cons']
    refine ⟨?_, chain'_endLeBefore_clampEnds (y :: rest) h.2⟩
    intro z hz
    obtain ⟨z', hz', hb⟩ := clampEnds_head?_beforeIdx y rest
    rw [hz'] at hz
    have hzz : z' = z := Option.some_inj.mp (Option.mem_def.mp hz)
    rw [← hzz, hb]
    exact h.1

theorem chain'_afterLeBefore_clampEnds :
    ∀ (l : List CandIdx), List.Chain' (fun x y => x.afterIdx ≤ y.beforeIdx) (clampEnds l)
  | [] => by simp [clampEnds]
  | [x] => by simp [clampEnds]
  | x :: y :: rest => by
    rw [clampEnds, List.chain'_cons']
    refine ⟨?_, chain'_afterLeBefore_clampEnds (y :: rest)⟩
    intro z hz
    obtain ⟨z', hz', hb⟩ := clampEnds_head?_beforeIdx y rest
    rw [hz'] at hz
    have hzz : z' = z := Option.some_inj.mp (Option.mem_def.mp hz)
    rw [← hzz, hb]
    exact Nat.min_le_right _ _

theorem clampStartsAux_eq_self :
    ∀ (l : List CandIdx) (prev : CandIdx),
      List.Chain' (fun x y => x.endIdx ≤ y.beforeIdx) (prev :: l) →
      clampStartsAux prev l = l
  | [], _, _ => rfl
  | cur :: rest, prev, h => by
    rw [List.chain'_cons] at h
    rw [clampStartsAux]
    have h1 : max cur.beforeIdx prev.endIdx = cur.beforeIdx := Nat.max_eq_left h.1
    have h2 : { cur with beforeIdx := max cur.beforeIdx prev.endIdx } = cur := by
      rw [h1]
    rw [h2, clampStartsAux_eq_self rest cur h.2]

theorem clampStarts_eq_self (l : List CandIdx)
    (h : List.Chain' (fun x y => x.endIdx ≤ y.beforeIdx) l) : clampStarts l = l := by
  cases l with
  | nil => rfl
  | cons first rest => rw [clampStarts, clampStartsAux_eq_self rest first h]

theorem clampEnds_eq_self :
    ∀ (l : List CandIdx), List.Chain' (fun x y => x.afterIdx ≤ y.beforeIdx) l →
      clampEnds l = l
  | [], _ => rfl
  | [_], _ => rfl
  | x :: y :: rest, h => by
    rw [List.chain'_cons] at h
    rw [clampEnds]
    have h1 : min x.afterIdx y.beforeIdx = x.afterIdx := Nat.min_eq_left h.1
    have h2 : { x with afterIdx := min x.afterIdx y.beforeIdx } = x := by rw [h1]
    rw [h2, clampEnds_eq_self (y :: rest) h.2]

/-! ### Claim C2: what the forward pass clamps against -/

/-- C2 counterexample: in `"[[1]] a b [[2]]"` the second candidate's
post-pass-1 `before_idx` is `max(raw, previous end) = 5`, not
`max(raw, previous pre-clamp after_idx) = 10` as the claim states. -/
theorem c2_counterexample :
    ((clampStarts (rawIdxs 5 2 128 ("[[1]] a b [[2]]".toList))).getD 1 dfltCand).beforeIdx ≠
      max (((rawIdxs 5 2 128 ("[[1]] a b [[2]]".toList)).getD 1 dfltCand).beforeIdx)
        (((rawIdxs 5 2 128 ("[[1]] a b [[2]]".toList)).getD 0 dfltCand).afterIdx) := by
  decide

/-- C2 amended: in the forward pass, every candidate after the first gets its
before-window start set to the max of its raw value and the previous
candidate's closing-delimiter end index (`idxs[i-1][2][0]`, the `end` field),
not the previous candidate's after-window end. -/
theorem c2_amended (cb ca mcl : Nat) (content : List Char) (i : Nat)
    (h : i + 1 < (rawIdxs cb ca mcl content).length) :
    ((clampStarts (rawIdxs cb ca mcl content)).getD (i + 1) dfltCand).beforeIdx =
      max (((rawIdxs cb ca mcl content).getD (i + 1) dfltCand).beforeIdx)
        (((rawIdxs cb ca mcl content).getD i dfltCand).endIdx) := by
  cases hl : rawIdxs cb ca mcl content with
  | nil => rw [hl] at h; simp at h
  | cons first rest =>
    rw [hl] at h
    rw [clampStarts]
    simp only [List.getD_cons_succ]
    rw [clampStartsAux_getD dfltCand rest first i (by simpa using h)]
    cases i with
    | zero => simp
    | succ k => simp

theorem c2_amended_witness :
    0 + 1 < (rawIdxs 5 2 128 ("[[1]] a b [[2]]".toList)).length ∧
      ((clampStarts (rawIdxs 5 2 128 ("[[1]] a b [[2]]".toList))).getD 1 dfltCand).beforeIdx =
        max (((rawIdxs 5 2 128 ("[[1]] a b [[2]]".toList)).getD 1 dfltCand).beforeIdx)
          (((rawIdxs 5 2 128 ("[[1]] a b [[2]]".toList)).getD 0 dfltCand).endIdx) :=
  ⟨by decide, c2_amended 5 2 128 ("[[1]] a b [[2]]".toList) 0 (by decide)⟩

/-! ### Claim C9: idempotence of the two-pass clamp -/

/-- C9: re-running the forward and backward passes on the already-clamped
index list of any text leaves it unchanged. -/
theorem c9_clamp_idempotent (cb ca mcl : Nat) (content : List Char) :
    clampEnds (clampStarts (clampedIdxs cb ca mcl content)) =
      clampedIdxs cb ca mcl content := by
  have h1 : List.Chain' (fun x y => x.endIdx ≤ y.beforeIdx)
      (clampedIdxs cb ca mcl content) :=
    chain'_endLeBefore_clampEnds _ (chain'_endLeBefore_clampStarts _)
  rw [clampStarts_eq_self _ h1]
  exact clampEnds_eq_self _ (chain'_afterLeBefore_clampEnds _)

/-! ### Claim C5: the advantage stripper -/

/-- C5 counterexample: the removal regex `(adv|dis)(\s+|$)` also consumes the
whitespace after the token, so `"1d20 dis extra"` becomes `"1d20 extra"`
(one space), not `"1d20  extra"` as the claim states. -/
theorem c5_counterexample :
    (stringSearchAdv ("1d20 dis extra".toList)).1 ≠ "1d20  extra".toList := by
  decide

/-- C5 amended: when a whole-word `adv`/`dis` is detected, every occurrence
of either token that is followed by whitespace or end-of-string — whether or
not it starts at a word boundary — is removed together with the following
whitespace run; in particular `"1d20 dis extra"` yields `"1d20 extra"` with
Disadvantage, and `"advantage"` is returned unchanged with mode `NONE`. -/
theorem c5_amended :
    (∀ s, stringSearchAdv s =
      ((if hasWholeWord advTok s || hasWholeWord disTok s then subAdvDis s else s),
        (if hasWholeWord advTok s then AdvType.ADV
          else if hasWholeWord disTok s then AdvType.DIS else AdvType.NONE))) ∧
    stringSearchAdv ("1d20+1 adv".toList) = ("1d20+1 ".toList, AdvType.ADV) ∧
    stringSearchAdv ("1d20 dis extra".toList) = ("1d20 extra".toList, AdvType.DIS) ∧
    stringSearchAdv ("1d20+3".toList) = ("1d20+3".toList, AdvType.NONE) ∧
    stringSearchAdv ("advantage".toList) = ("advantage".toList, AdvType.NONE) ∧
    stringSearchAdv ("adv badv x".toList) = ("bx".toList, AdvType.ADV) := by
  refine ⟨?_, by decide, by decide, by decide, by decide, by decide⟩
  intro s
  rw [stringSearchAdv]
  by_cases ha : hasWholeWord advTok s
  · simp [ha]
  · by_cases hd : hasWholeWord disTok s
    · simp [ha, hd]
    · simp [ha, hd]

/-! ### Claim C6: the inline evaluation pipeline -/

/-- C6: a syntax error contributes no line, a recoverable roll error
contributes a line embedding its message while the rest of the batch is still
processed, and an empty line list produces no reply at all. -/
theorem c6_inline_pipeline :
    (∀ t rest, inlineOutLines ((t, RollOutcome.syntaxError) :: rest) = inlineOutLines rest) ∧
    (∀ expr cb ca msg rest,
      inlineOutLines (((expr, cb, ca), RollOutcome.rollError msg) :: rest) =
        (replaceNl cb ++ '(' :: (msg ++ ')' :: replaceNl ca)) :: inlineOutLines rest) ∧
    (∀ batch, doInlineRolls batch = none ↔ inlineOutLines batch = []) := by
  refine ⟨?_, ?_, ?_⟩
  · rintro ⟨a, b, c⟩ rest
    rfl
  · intro expr cb ca msg rest
    rfl
  · intro batch
    by_cases h : inlineOutLines batch = [] <;> simp [doInlineRolls, h]

/-! ### Claim C7: iteration bounds of the batch aggregator -/

/-- C7: an iteration count outside `[1, 100]` is rejected with the fixed
message and no per-iteration output; inside the range, exactly that many
rolls are performed. -/
theorem c7_iteration_bounds (inp : RollManyInput) :
    (inp.iterations < 1 ∨ 100 < inp.iterations →
      rollMany inp = RollManyResult.rejected tooManyMsg) ∧
    (1 ≤ inp.iterations → inp.iterations ≤ 100 →
      rollMany inp = RollManyResult.ok (rmResults inp) (rmOut inp) ∧
        ((rmResults inp).length : Int) = inp.iterations) := by
  constructor
  · intro h
    rw [rollMany, if_pos h]
  · intro h1 h2
    refine ⟨by rw [rollMany, if_neg (by omega)], ?_⟩
    rw [rmResults]
    simp [Int.toNat_of_nonneg (by omega : (0 : Int) ≤ inp.iterations)]

theorem c7_witness :
    rollMany ⟨0, none, none, fun _ => ['r'], fun _ => 2⟩ =
        RollManyResult.rejected tooManyMsg ∧
      rollMany ⟨101, none, none, fun _ => ['r'], fun _ => 2⟩ =
        RollManyResult.rejected tooManyMsg ∧
      rollMany ⟨3, none, none, fun _ => ['r'], fun _ => 2⟩ =
        RollManyResult.ok (rmResults ⟨3, none, none, fun _ => ['r'], fun _ => 2⟩)
          (rmOut ⟨3, none, none, fun _ => ['r'], fun _ => 2⟩) ∧
      ((rmResults ⟨3, none, none, fun _ => ['r'], fun _ => 2⟩).length : Int) = 3 :=
  ⟨(c7_iteration_bounds _).1 (Or.inl (by decide)),
    (c7_iteration_bounds _).1 (Or.inr (by decide)),
    ((c7_iteration_bounds _).2 (by decide) (by decide)).1,
    ((c7_iteration_bounds _).2 (by decide) (by decide)).2⟩

/-! ### Claim C8: the output-size degradation policy -/

/-- C8: when the full rendering exceeds 1500 characters, the reply keeps the
header and footer unchanged and replaces the per-iteration lines by the first
result plus the count of omitted results. -/
theorem c8_degradation (inp : RollManyInput) (h1 : 1 ≤ inp.iterations)
    (h2 : inp.iterations ≤ 100) (h3 : 1500 < (rmFullOut inp).length) :
    rollMany inp = RollManyResult.ok (rmResults inp)
      (rmHeader inp ++ '\n' :: (((rmResults inp).headD ([], 0)).1 ++
        '\n' :: ('[' :: natToChars ((rmResults inp).length - 1) ++
          " results omitted for output size.]".toList ++ '\n' :: rmFooter inp))) := by
  rw [rollMany, if_neg (by omega), rmOut, if_pos h3]
  rfl

theorem c8_witness :
    (1 : Int) ≤ 2 ∧ (2 : Int) ≤ 100 ∧
      1500 < (rmFullOut ⟨2, none, none,
        fun _ => List.replicate 760 'x', fun _ => 2⟩).length ∧
      rollMany ⟨2, none, none, fun _ => List.replicate 760 'x', fun _ => 2⟩ =
        RollManyResult.ok
          (rmResults ⟨2, none, none, fun _ => List.replicate 760 'x', fun _ => 2⟩)
          (rmHeader ⟨2, none, none, fun _ => List.replicate 760 'x', fun _ => 2⟩ ++
            '\n' :: (((rmResults ⟨2, none, none,
                fun _ => List.replicate 760 'x', fun _ => 2⟩).headD ([], 0)).1 ++
              '\n' :: ('[' :: natToChars ((rmResults ⟨2, none, none,
                  fun _ => List.replicate 760 'x', fun _ => 2⟩).length - 1) ++
                " results omitted for output size.]".toList ++
                  '\n' :: rmFooter ⟨2, none, none,
                    fun _ => List.replicate 760 'x', fun _ => 2⟩))) :=
  ⟨by decide, by decide, by decide,
    c8_degradation _ (by decide) (by decide) (by decide)⟩

/-! ### Facts about `strFind` and the locator output -/

theorem strFindFrom_some (s pat : List Char) :
    ∀ (fuel i j : Nat), strFindFrom s pat i fuel = some j →
      i ≤ j ∧ occursAt pat s j = true
  | 0, i, j, h => by simp [strFindFrom] at h
  | fuel + 1, i, j, h => by
    rw [strFindFrom] at h
    by_cases hc : occursAt pat s i = true
    · rw [if_pos hc] at h
      injection h with h
      subst h
      exact ⟨Nat.le_refl _, hc⟩
    · rw [if_neg hc] at h
      have ih := strFindFrom_some s pat fuel (i + 1) j h
      exact ⟨by omega, ih.2⟩

theorem strFind_some {s pat : List Char} {start j : Nat}
    (h : strFind s pat start = some j) : start ≤ j ∧ occursAt pat s j = true :=
  strFindFrom_some s pat _ start j h

theorem occursAt_two {a b : Char} {s : List Char} {i : Nat}
    (h : occursAt [a, b] s i = true) : s[i]? = some a ∧ s[i + 1]? = some b := by
  rw [occursAt, List.isPrefixOf_iff_prefix] at h
  obtain ⟨t, ht⟩ := h
  have h0 : (s.drop i)[0]? = some a := by rw [← ht]; simp
  have h1 : (s.drop i)[1]? = some b := by rw [← ht]; simp
  rw [List.getElem?_drop] at h0 h1
  simpa using ⟨h0, h1⟩

theorem occursAt_two_le {a b : Char} {s : List Char} {i : Nat}
    (h : occursAt [a, b] s i = true) : i + 2 ≤ s.length := by
  have h1 := (occursAt_two h).2
  have h2 : i + 1 < s.length := by
    by_contra hh
    rw [List.getElem?_eq_none (by omega)] at h1
    exact Option.noConfusion h1
  omega

theorem close_ge_open_add_two {s : List Char} {i j : Nat} (hij : i ≤ j)
    (ho : occursAt openPat s i = true) (hc : occursAt closePat s j = true) :
    i + 2 ≤ j := by
  obtain ⟨ho1, ho2⟩ := occursAt_two (show occursAt ['[', '['] s i = true from ho)
  obtain ⟨hc1, hc2⟩ := occursAt_two (show occursAt [']', ']'] s j = true from hc)
  by_contra hh
  have : j = i ∨ j = i + 1 := by omega
  rcases this with rfl | rfl
  · rw [ho1] at hc1
    simp at hc1
  · rw [ho2] at hc1
    simp at hc1

theorem open_ge_close_add_two {s : List Char} {i j : Nat} (hij : i ≤ j)
    (hc : occursAt closePat s i = true) (ho : occursAt openPat s j = true) :
    i + 2 ≤ j := by
  obtain ⟨hc1, hc2⟩ := occursAt_two (show occursAt [']', ']'] s i = true from hc)
  obtain ⟨ho1, ho2⟩ := occursAt_two (show occursAt ['[', '['] s j = true from ho)
  by_contra hh
  have : j = i ∨ j = i + 1 := by omega
  rcases this with rfl | rfl
  · rw [hc1] at ho1
    simp at ho1
  · rw [hc2] at ho1
    simp at ho1

/-- Every range the locator emits is well formed, within the text, and starts
no earlier than the scan position. -/
theorem findExprsAux_mem (s : List Char) :
    ∀ (fuel e : Nat) (r : Nat × Nat × Nat × Nat), r ∈ findExprsAux s fuel e →
      e ≤ r.1 ∧ r.2.1 = r.1 + 2 ∧ r.1 + 2 ≤ r.2.2.1 ∧ r.2.2.2 = r.2.2.1 + 2 ∧
        r.2.2.1 + 2 ≤ s.length ∧
        occursAt openPat s r.1 = true ∧ occursAt closePat s r.2.2.1 = true
  | 0, e, r, h => by simp [findExprsAux] at h
  | fuel + 1, e, r, h => by
    rw [findExprsAux] at h
    cases ho : strFind s openPat e with
    | none => simp [ho] at h
    | some start =>
      cases hc : strFind s closePat start with
      | none => simp [ho, hc] at h
      | some ei =>
        simp only [ho, hc] at h
        obtain ⟨hes, hoc⟩ := strFind_some ho
        obtain ⟨hse, hcc⟩ := strFind_some hc
        rcases List.mem_cons.mp h with rfl | hmem
        · exact ⟨hes, rfl, close_ge_open_add_two hse hoc hcc, rfl,
            occursAt_two_le hcc, hoc, hcc⟩
        · have ih := findExprsAux_mem s fuel ei r hmem
          have : e ≤ r.1 := by
            have h1 := close_ge_open_add_two hse hoc hcc
            have h2 := ih.1
            omega
          exact ⟨this, ih.2⟩

/-- Consecutive locator ranges are separated: the outer end of one is at most
the outer start of the next. -/
theorem findExprsAux_chain (s : List Char) :
    ∀ (fuel e : Nat),
      List.Chain' (fun a b => a.2.2.2 ≤ b.1) (findExprsAux s fuel e)
  | 0, _ => by simp [findExprsAux]
  | fuel + 1, e => by
    rw [findExprsAux]
    cases ho : strFind s openPat e with
    | none => simp [ho]
    | some start =>
      cases hc : strFind s closePat start with
      | none => simp [ho, hc]
      | some ei =>
        simp only [ho, hc]
        rw [List.chain'_cons']
        refine ⟨?_, findExprsAux_chain s fuel ei⟩
        intro y hy
        have hmem := List.mem_of_mem_head? hy
        have hf := findExprsAux_mem s fuel ei y hmem
        have hcc := (strFind_some hc).2
        have := open_ge_close_add_two hf.1 hcc hf.2.2.2.2.2.1
        simpa using this

/-! ### Well-formedness of the raw windows -/

theorem headD_mem_cons {α : Type} : ∀ (l : List α) (d : α), l.headD d ∈ d :: l
  | [], _ => List.mem_cons_self _ _
  | _ :: _, _ => List.mem_cons_of_mem _ (List.mem_cons_self _ _)

theorem getLastD_mem_cons {α : Type} : ∀ (l : List α) (d : α), l.getLastD d ∈ d :: l
  | [], _ => List.mem_cons_self _ _
  | x :: xs, d => by
    rw [List.getLastD_cons]
    rcases List.mem_cons.mp (getLastD_mem_cons xs x) with h | h
    · rw [h]
      exact List.mem_cons_of_mem _ (List.mem_cons_self _ _)
    · exact List.mem_cons_of_mem _ (List.mem_cons_of_mem _ h)

theorem pySplit_length_le : ∀ (m : Nat) (s : List Char), ∀ t ∈ pySplit s m, t.length ≤ s.length
  | 0, s, t, h => by
    rw [pySplit] at h
    by_cases hs : s.dropWhile isWsC = []
    · simp [hs] at h
    · rw [if_neg hs] at h
      rcases List.mem_singleton.mp h with rfl
      exact (List.dropWhile_suffix _).length_le
  | m + 1, s, t, h => by
    rw [pySplit] at h
    by_cases hs : s.dropWhile isWsC = []
    · simp [hs] at h
    · rw [if_neg hs] at h
      have hsub : (s.dropWhile isWsC).length ≤ s.length :=
        (List.dropWhile_suffix _).length_le
      rcases List.mem_cons.mp h with rfl | hmem
      · exact le_trans (List.takeWhile_prefix _).length_le hsub
      · have ih := pySplit_length_le m _ t hmem
        exact le_trans ih (le_trans (List.dropWhile_suffix _).length_le hsub)

theorem pyRsplit_headD_length_le (s : List Char) (m : Nat) :
    ((pyRsplit s m).headD []).length ≤ s.length := by
  rw [pyRsplit]
  rcases List.mem_cons.mp
      (headD_mem_cons (((pySplit s.reverse m).map List.reverse).reverse) []) with h | h
  · rw [h]
    exact Nat.zero_le _
  · rw [List.mem_reverse, List.mem_map] at h
    obtain ⟨u, hu, heq⟩ := h
    rw [← heq]
    simpa using pySplit_length_le m s.reverse u hu

theorem pySplit_getLastD_length_le (s : List Char) (m : Nat) :
    ((pySplit s m).getLastD []).length ≤ s.length := by
  rcases List.mem_cons.mp (getLastD_mem_cons (pySplit s m) []) with h | h
  · rw [h]
    exact Nat.zero_le _
  · exact pySplit_length_le m s _ h

theorem slice_length_le (s : List Char) (i j : Nat) : (slice s i j).length ≤ j - i := by
  rw [slice]
  simp [Nat.min_le_left]

theorem mkWindow_start (cb ca mcl : Nat) (content : List Char) (r : Nat × Nat × Nat × Nat) :
    (mkWindow cb ca mcl content r).start = r.1 := rfl

theorem mkWindow_endIdx (cb ca mcl : Nat) (content : List Char) (r : Nat × Nat × Nat × Nat) :
    (mkWindow cb ca mcl content r).endIdx = r.2.2.2 := rfl

theorem mkWindow_wf (cb ca mcl : Nat) (content : List Char) (r : Nat × Nat × Nat × Nat)
    (h2 : r.1 + 2 ≤ r.2.2.1) (h3 : r.2.2.2 = r.2.2.1 + 2)
    (h4 : r.2.2.1 + 2 ≤ content.length) :
    CandWF content.length (mkWindow cb ca mcl content r) := by
  have hb : (mkWindow cb ca mcl content r).beforeIdx ≤ r.1 := by
    rw [mkWindow]
    dsimp only
    split
    · have hL := pyRsplit_headD_length_le (slice content (r.1 - mcl) r.1) cb
      have hsl := slice_length_le content (r.1 - mcl) r.1
      omega
    · exact Nat.sub_le _ _
  have hendo : r.2.2.2 ≤ content.length := by omega
  have ha : (mkWindow cb ca mcl content r).afterIdx ≤ content.length ∧
      r.2.2.2 ≤ (mkWindow cb ca mcl content r).afterIdx := by
    rw [mkWindow]
    dsimp only
    split
    · have hL := pySplit_getLastD_length_le
        (slice content r.2.2.2 (min content.length (r.2.2.2 + mcl))) ca
      have hsl := slice_length_le content r.2.2.2 (min content.length (r.2.2.2 + mcl))
      have hmin1 : min content.length (r.2.2.2 + mcl) ≤ content.length :=
        Nat.min_le_left _ _
      have hmin2 : r.2.2.2 ≤ min content.length (r.2.2.2 + mcl) :=
        le_min hendo (Nat.le_add_right _ _)
      omega
    · have hmin1 : min content.length (r.2.2.2 + mcl) ≤ content.length :=
        Nat.min_le_left _ _
      have hmin2 : r.2.2.2 ≤ min content.length (r.2.2.2 + mcl) :=
        le_min hendo (Nat.le_add_right _ _)
      omega
  refine ⟨hb, ?_, ?_, ha.1⟩
  · rw [mkWindow_start, mkWindow_endIdx]
    omega
  · rw [mkWindow_endIdx]
    exact ha.2

theorem rawIdxs_wf (cb ca mcl : Nat) (content : List Char) :
    ∀ x ∈ rawIdxs cb ca mcl content, CandWF content.length x := by
  intro x hx
  rw [rawIdxs, findRollExprIndices] at hx
  obtain ⟨r, hr, rfl⟩ := List.mem_map.mp hx
  have hf := findExprsAux_mem content _ 0 r hr
  exact mkWindow_wf cb ca mcl content r hf.2.2.1 hf.2.2.2.1 hf.2.2.2.2.1

theorem rawIdxs_chain (cb ca mcl : Nat) (content : List Char) :
    List.Chain' (fun x y => x.endIdx ≤ y.start) (rawIdxs cb ca mcl content) := by
  rw [rawIdxs, findRollExprIndices]
  exact List.chain'_map_of_chain' (mkWindow cb ca mcl content) (fun a b h => h)
    (findExprsAux_chain content _ 0)

/-! ### Well-formedness through the clamping passes -/

theorem clampStartsAux_wf {len : Nat} :
    ∀ (l : List CandIdx) (prev : CandIdx), (∀ x ∈ l, CandWF len x) →
      List.Chain' (fun x y => x.endIdx ≤ y.start) (prev :: l) →
      ∀ x ∈ clampStartsAux prev l, CandWF len x
  | [], _, _, _ => by simp [clampStartsAux]
  | cur :: rest, prev, hwf, hch => by
    rw [List.chain'_cons] at hch
    intro x hx
    rw [clampStartsAux] at hx
    rcases List.mem_cons.mp hx with rfl | hmem
    · have hc := hwf cur (List.mem_cons_self _ _)
      exact ⟨max_le hc.1 hch.1, hc.2.1, hc.2.2.1, hc.2.2.2⟩
    · have h2 : List.Chain' (fun x y => x.endIdx ≤ y.start)
          ({ cur with beforeIdx := max cur.beforeIdx prev.endIdx } :: rest) := by
        rw [List.chain'_cons']
        exact ⟨(List.chain'_cons'.mp hch.2).1, (List.chain'_cons'.mp hch.2).2⟩
      exact clampStartsAux_wf rest _
        (fun y hy => hwf y (List.mem_cons_of_mem _ hy)) h2 x hmem

theorem clampStarts_wf {len : Nat} (l : List CandIdx)
    (hwf : ∀ x ∈ l, CandWF len x)
    (hch : List.Chain' (fun x y => x.endIdx ≤ y.start) l) :
    ∀ x ∈ clampStarts l, CandWF len x := by
  cases l with
  | nil => simp [clampStarts]
  | cons first rest =>
    intro x hx
    rw [clampStarts] at hx
    rcases List.mem_cons.mp hx with rfl | hmem
    · exact hwf x (List.mem_cons_self _ _)
    · exact clampStartsAux_wf rest first
        (fun y hy => hwf y (List.mem_cons_of_mem _ hy)) hch x hmem

theorem chain'_es_clampStartsAux :
    ∀ (l : List CandIdx) (prev : CandIdx),
      List.Chain' (fun x y => x.endIdx ≤ y.start) (prev :: l) →
      List.Chain' (fun x y => x.endIdx ≤ y.start) (prev :: clampStartsAux prev l)
  | [], _, _ => by simp [clampStartsAux]
  | cur :: rest, prev, h => by
    rw [List.chain'_cons] at h
    rw [clampStartsAux, List.chain'_cons]
    refine ⟨h.1, ?_⟩
    have h2 : List.Chain' (fun x y => x.endIdx ≤ y.start)
        ({ cur with beforeIdx := max cur.beforeIdx prev.endIdx } :: rest) := by
      rw [List.chain'_cons']
      exact ⟨(List.chain'_cons'.mp h.2).1, (List.chain'_cons'.mp h.2).2⟩
    exact chain'_es_clampStartsAux rest _ h2

theorem chain'_es_clampStarts (l : List CandIdx)
    (h : List.Chain' (fun x y => x.endIdx ≤ y.start) l) :
    List.Chain' (fun x y => x.endIdx ≤ y.start) (clampStarts l) := by
  cases l with
  | nil => simp [clampStarts]
  | cons first rest =>
    rw [clampStarts]
    exact chain'_es_clampStartsAux rest first h

theorem clampEnds_head?_fields (x : CandIdx) (xs : List CandIdx) :
    ∃ a, (clampEnds (x :: xs)).head? = some { x with afterIdx := a } := by
  cases xs with
  | nil => exact ⟨x.afterIdx, rfl⟩
  | cons y ys => exact ⟨_, rfl⟩

theorem chain'_es_clampEnds :
    ∀ (l : List CandIdx), List.Chain' (fun x y => x.endIdx ≤ y.start) l →
      List.Chain' (fun x y => x.endIdx ≤ y.start) (clampEnds l)
  | [], _ => by simp [clampEnds]
  | [x], _ => by simp [clampEnds]
  | x :: y :: rest, h => by
    rw [List.chain'_cons] at h
    rw [clampEnds, List.chain'_cons']
    refine ⟨?_, chain'_es_clampEnds (y :: rest) h.2⟩
    intro z hz
    obtain ⟨a, ha⟩ := clampEnds_head?_fields y rest
    rw [ha] at hz
    have hzz := Option.some_inj.mp (Option.mem_def.mp hz)
    rw [← hzz]
    exact h.1

theorem clampEnds_wf {len : Nat} :
    ∀ (l : List CandIdx), (∀ x ∈ l, CandWF len x) →
      List.Chain' (fun x y => x.endIdx ≤ y.beforeIdx) l →
      ∀ x ∈ clampEnds l, CandWF len x
  | [], _, _ => by simp [clampEnds]
  | [x], hwf, _ => by simpa [clampEnds] using hwf
  | x :: y :: rest, hwf, hch => by
    rw [List.chain'_cons] at hch
    intro z hz
    rw [clampEnds] at hz
    rcases List.mem_cons.mp hz with rfl | hmem
    · have wx := hwf x (List.mem_cons_self _ _)
      exact ⟨wx.1, wx.2.1, le_min wx.2.2.1 hch.1,
        le_trans (Nat.min_le_left _ _) wx.2.2.2⟩
    · exact clampEnds_wf (y :: rest)
        (fun w hw => hwf w (List.mem_cons_of_mem _ hw)) hch.2 z hmem

theorem chain'_Rfull {len : Nat} :
    ∀ (l : List CandIdx), (∀ x ∈ l, CandWF len x) →
      List.Chain' (fun x y => x.afterIdx ≤ y.beforeIdx) l →
      List.Chain' (fun x y => x.endIdx ≤ y.beforeIdx) l →
      List.Chain' (fun x y => x.endIdx ≤ y.start) l →
      List.Chain' Rfull l
  | [], _, _, _, _ => List.chain'_nil
  | [x], _, _, _, _ => List.chain'_singleton x
  | x :: y :: rest, hwf, h1, h2, h3 => by
    rw [List.chain'_cons] at h1 h2 h3
    rw [List.chain'_cons]
    refine ⟨?_, chain'_Rfull (y :: rest)
      (fun z hz => hwf z (List.mem_cons_of_mem _ hz)) h1.2 h2.2 h3.2⟩
    obtain ⟨wx1, wx2, wx3, wx4⟩ := hwf x (List.mem_cons_self _ _)
    obtain ⟨wy1, wy2, wy3, wy4⟩ :=
      hwf y (List.mem_cons_of_mem _ (List.mem_cons_self _ _))
    have g1 := h1.1
    have g2 := h2.1
    have g3 := h3.1
    exact ⟨g1, by omega, by omega, by omega, g3⟩

theorem clampedIdxs_wf (cb ca mcl : Nat) (content : List Char) :
    ∀ x ∈ clampedIdxs cb ca mcl content, CandWF content.length x := by
  rw [clampedIdxs]
  exact clampEnds_wf _
    (clampStarts_wf _ (rawIdxs_wf cb ca mcl content) (rawIdxs_chain cb ca mcl content))
    (chain'_endLeBefore_clampStarts _)

theorem clampedIdxs_pairwise (cb ca mcl : Nat) (content : List Char) :
    List.Pairwise Rfull (clampedIdxs cb ca mcl content) := by
  have hwf0 := rawIdxs_wf cb ca mcl content
  have hch0 := rawIdxs_chain cb ca mcl content
  have hwf1 := clampStarts_wf _ hwf0 hch0
  have hch1es := chain'_es_clampStarts _ hch0
  have hch1eb := chain'_endLeBefore_clampStarts (rawIdxs cb ca mcl content)
  have hwf2 := clampEnds_wf _ hwf1 hch1eb
  have hch2es := chain'_es_clampEnds _ hch1es
  have hch2eb := chain'_endLeBefore_clampEnds _ hch1eb
  have hch2ab := chain'_afterLeBefore_clampEnds (clampStarts (rawIdxs cb ca mcl content))
  rw [clampedIdxs]
  exact List.chain'_iff_pairwise.mp (chain'_Rfull _ hwf2 hch2ab hch2eb hch2es)

/-! ### Claim C1: disjointness of context windows -/

/-- C1: after the two clamping passes, no character position of the text lies
both in the after-window `[endIdx, afterIdx)` of one candidate and in the
before-window `[beforeIdx, start)` of a different candidate. -/
theorem c1_disjoint_windows (cb ca mcl : Nat) (content : List Char) (i j p : Nat)
    (hi : i < (clampedIdxs cb ca mcl content).length)
    (hj : j < (clampedIdxs cb ca mcl content).length) (hij : i ≠ j)
    (h1 : ((clampedIdxs cb ca mcl content).getD i dfltCand).endIdx ≤ p)
    (h2 : p < ((clampedIdxs cb ca mcl content).getD i dfltCand).afterIdx) :
    ¬(((clampedIdxs cb ca mcl content).getD j dfltCand).beforeIdx ≤ p ∧
      p < ((clampedIdxs cb ca mcl content).getD j dfltCand).start) := by
  intro hcontra
  rw [List.getD_eq_get _ _ hi] at h1 h2
  rw [List.getD_eq_get _ _ hj] at hcontra
  have hpw := clampedIdxs_pairwise cb ca mcl content
  have hwf := clampedIdxs_wf cb ca mcl content
  rcases Nat.lt_or_ge i j with hlt | hge
  · have hr := List.pairwise_iff_get.mp hpw ⟨i, hi⟩ ⟨j, hj⟩ hlt
    have ha := hr.1
    omega
  · have hlt' : j < i := by omega
    have hr := List.pairwise_iff_get.mp hpw ⟨j, hj⟩ ⟨i, hi⟩ hlt'
    have hes := hr.2.2.2.2
    obtain ⟨wj1, wj2, wj3, wj4⟩ :=
      hwf _ (List.get_mem (clampedIdxs cb ca mcl content) j hj)
    obtain ⟨wi1, wi2, wi3, wi4⟩ :=
      hwf _ (List.get_mem (clampedIdxs cb ca mcl content) i hi)
    omega

theorem c1_witness :
    (0 : Nat) ≠ 1 ∧
    ((clampedIdxs 5 2 128 ("[[1]] w1 w2 w3 w4 w5 w6 w7 [[2]]".toList)).getD 0 dfltCand).endIdx ≤ 6 ∧
    6 < ((clampedIdxs 5 2 128 ("[[1]] w1 w2 w3 w4 w5 w6 w7 [[2]]".toList)).getD 0 dfltCand).afterIdx ∧
    ¬(((clampedIdxs 5 2 128 ("[[1]] w1 w2 w3 w4 w5 w6 w7 [[2]]".toList)).getD 1 dfltCand).beforeIdx ≤ 6 ∧
      6 < ((clampedIdxs 5 2 128 ("[[1]] w1 w2 w3 w4 w5 w6 w7 [[2]]".toList)).getD 1 dfltCand).start) :=
  ⟨by decide, by decide, by decide,
    c1_disjoint_windows 5 2 128 ("[[1]] w1 w2 w3 w4 w5 w6 w7 [[2]]".toList) 0 1 6
      (by decide) (by decide) (by decide) (by decide) (by decide)⟩

/-! ### Token counting: recursion equation and fuel irrelevance -/

theorem pySplit_nil : ∀ (m : Nat), pySplit [] m = []
  | 0 => rfl
  | _ + 1 => rfl

theorem pySplit_of_ws {s : List Char} (hs : s.dropWhile isWsC = []) :
    ∀ (m : Nat), pySplit s m = []
  | 0 => by rw [pySplit]; simp [hs]
  | _ + 1 => by rw [pySplit]; simp [hs]

theorem tokensCount_nil : tokensCount [] = 0 := rfl

theorem dropTok_length {s : List Char} (hs : s.dropWhile isWsC ≠ []) :
    ((s.dropWhile isWsC).dropWhile notWs).length + 1 ≤
      (s.dropWhile isWsC).length := by
  cases hd : s.dropWhile isWsC with
  | nil => exact absurd hd hs
  | cons a t =>
    have hhead := List.head?_dropWhile_not isWsC s
    rw [hd] at hhead
    simp only [List.head?_cons] at hhead
    rw [show List.dropWhile notWs (a :: t) = List.dropWhile notWs t from
      List.dropWhile_cons_of_pos (by simp [notWs, hhead])]
    have hsuffix : (t.dropWhile notWs).length ≤ t.length :=
      (List.dropWhile_suffix _).length_le
    simp only [List.length_cons]
    omega

theorem pySplit_length_fuel : ∀ (m₁ : Nat) (s : List Char) (m₂ : Nat),
    s.length ≤ m₁ → s.length ≤ m₂ →
    (pySplit s m₁).length = (pySplit s m₂).length
  | 0, s, m₂, h₁, _ => by
    have : s = [] := List.length_eq_zero.mp (by omega)
    subst this
    rw [pySplit_nil, pySplit_nil]
  | m₁ + 1, s, m₂, h₁, h₂ => by
    by_cases hs : s.dropWhile isWsC = []
    · rw [pySplit_of_ws hs, pySplit_of_ws hs]
    · have hlen : 1 ≤ s.length := by
        cases s with
        | nil => exact absurd (by rfl) hs
        | cons a t => simp
      cases m₂ with
      | zero => omega
      | succ k =>
        rw [pySplit, pySplit]
        simp only [if_neg hs, List.length_cons]
        have hdrop := dropTok_length hs
        have hsub : (s.dropWhile isWsC).length ≤ s.length :=
          (List.dropWhile_suffix isWsC).length_le
        rw [pySplit_length_fuel m₁ _ k (by omega) (by omega)]

/-- The defining recursion of `tokensCount`. -/
theorem tokensCount_eq (s : List Char) :
    tokensCount s = if s.dropWhile isWsC = [] then 0
      else 1 + tokensCount ((s.dropWhile isWsC).dropWhile notWs) := by
  by_cases hs : s.dropWhile isWsC = []
  · rw [if_pos hs, tokensCount]
    rw [pySplit_of_ws hs]
    rfl
  · rw [if_neg hs]
    have hlen : 1 ≤ s.length := by
      cases s with
      | nil => exact absurd (by rfl) hs
      | cons a t => simp
    rw [tokensCount]
    cases hl : s.length with
    | zero => omega
    | succ k =>
      rw [pySplit]
      simp only [if_neg hs, List.length_cons]
      have hdrop := dropTok_length hs
      have hsub : (s.dropWhile isWsC).length ≤ s.length :=
        (List.dropWhile_suffix isWsC).length_le
      rw [tokensCount]
      have hfuel := pySplit_length_fuel k
        ((s.dropWhile isWsC).dropWhile notWs)
        ((s.dropWhile isWsC).dropWhile notWs).length
        (by omega) (Nat.le_refl _)
      omega

/-! ### Token counting: one-character extensions and reversal -/

theorem tokensCount_cons (c : Char) (s : List Char) :
    tokensCount (c :: s) =
      tokensCount s + (if !isWsC c && headWsOrNil s then 1 else 0) := by
  by_cases hc : isWsC c
  · rw [tokensCount_eq (c :: s), tokensCount_eq s,
      List.dropWhile_cons_of_pos hc]
    simp [hc]
  · rw [tokensCount_eq (c :: s),
      List.dropWhile_cons_of_neg (by simpa using hc), if_neg (by simp),
      List.dropWhile_cons_of_pos (show notWs c = true by simp [notWs, hc])]
    cases s with
    | nil => simp [headWsOrNil, hc, tokensCount_nil]
    | cons a t =>
      by_cases ha : isWsC a
      · rw [List.dropWhile_cons_of_neg (show ¬notWs a = true by simp [notWs, ha])]
        simp [headWsOrNil, ha, hc]
        omega
      · rw [List.dropWhile_cons_of_pos (show notWs a = true by simp [notWs, ha])]
        rw [tokensCount_eq (a :: t),
          List.dropWhile_cons_of_neg (by simpa using ha), if_neg (by simp),
          List.dropWhile_cons_of_pos (show notWs a = true by simp [notWs, ha])]
        simp [headWsOrNil, ha, hc]

theorem headWsOrNil_append_left (l l₂ : List Char) (h : l ≠ []) :
    headWsOrNil (l ++ l₂) = headWsOrNil l := by
  cases l with
  | nil => exact absurd rfl h
  | cons a t => rfl

theorem tokensCount_snoc : ∀ (s : List Char) (c : Char),
    tokensCount (s ++ [c]) =
      tokensCount s + (if !isWsC c && lastWsOrNil s then 1 else 0)
  | [], c => by
    by_cases hc : isWsC c
    · simp [tokensCount_eq, List.dropWhile_cons_of_pos hc, tokensCount_nil,
        lastWsOrNil, headWsOrNil, hc]
    · rw [List.nil_append, tokensCount_eq [c],
        List.dropWhile_cons_of_neg (by simpa using hc), if_neg (by simp),
        List.dropWhile_cons_of_pos (show notWs c = true by simp [notWs, hc])]
      simp [tokensCount_nil, lastWsOrNil, headWsOrNil, hc]
  | a :: t, c => by
    rw [List.cons_append, tokensCount_cons, tokensCount_snoc t c, tokensCount_cons]
    cases t with
    | nil =>
      simp only [List.nil_append, lastWsOrNil, headWsOrNil, List.reverse_nil,
        List.reverse_cons, tokensCount_nil]
      by_cases hc : isWsC c <;> by_cases ha : isWsC a <;>
        simp [headWsOrNil, hc, ha]
    | cons b u =>
      have hlast : lastWsOrNil (a :: b :: u) = lastWsOrNil (b :: u) := by
        rw [lastWsOrNil, lastWsOrNil, List.reverse_cons]
        rw [headWsOrNil_append_left _ _ (by simp)]
      rw [hlast]
      rw [headWsOrNil_append_left (b :: u) [c] (by simp)]
      omega

theorem tokensCount_reverse : ∀ (s : List Char), tokensCount s.reverse = tokensCount s
  | [] => rfl
  | c :: t => by
    rw [List.reverse_cons, tokensCount_snoc, tokensCount_reverse t, tokensCount_cons,
      lastWsOrNil, List.reverse_reverse]

/-! ### Token counting: monotonicity under drop, take and strips -/

theorem tokensCount_le_cons (c : Char) (s : List Char) :
    tokensCount s ≤ tokensCount (c :: s) := by
  rw [tokensCount_cons]
  exact Nat.le_add_right _ _

theorem tokensCount_drop_le : ∀ (s : List Char) (n : Nat),
    tokensCount (s.drop n) ≤ tokensCount s
  | _, 0 => Nat.le_refl _
  | [], _ + 1 => by simp [tokensCount_nil]
  | c :: t, n + 1 => by
    rw [List.drop_succ_cons]
    exact le_trans (tokensCount_drop_le t n) (tokensCount_le_cons c t)

theorem tokensCount_le_snoc (s : List Char) (c : Char) :
    tokensCount s ≤ tokensCount (s ++ [c]) := by
  rw [tokensCount_snoc]
  exact Nat.le_add_right _ _

theorem tokensCount_take_succ_le (s : List Char) (n : Nat) :
    tokensCount (s.take n) ≤ tokensCount (s.take (n + 1)) := by
  rw [List.take_succ]
  cases h : s[n]? with
  | none => simp
  | some a => simpa using tokensCount_le_snoc (s.take n) a

theorem tokensCount_take_le (s : List Char) (n : Nat) :
    tokensCount (s.take n) ≤ tokensCount s := by
  have key : ∀ (d k : Nat), tokensCount (s.take k) ≤ tokensCount (s.take (k + d)) := by
    intro d
    induction d with
    | zero => intro k; exact Nat.le_refl _
    | succ m ih =>
      intro k
      rw [← Nat.add_assoc]
      exact le_trans (ih k) (tokensCount_take_succ_le s (k + m))
  rcases le_or_lt n s.length with hle | hlt
  · have := key (s.length - n) n
    rw [Nat.add_sub_cancel' hle, List.take_length] at this
    exact this
  · rw [List.take_of_length_le (by omega)]

theorem dropWhile_idem (p : Char → Bool) (l : List Char) :
    (l.dropWhile p).dropWhile p = l.dropWhile p := by
  cases hd : l.dropWhile p with
  | nil => rfl
  | cons a t =>
    have hhead := List.head?_dropWhile_not p l
    rw [hd] at hhead
    simp only [List.head?_cons] at hhead
    rw [List.dropWhile_cons_of_neg (by simp [hhead])]

theorem tokensCount_lstrip (s : List Char) :
    tokensCount (lstrip s) = tokensCount s := by
  rw [tokensCount_eq (lstrip s), tokensCount_eq s, lstrip, dropWhile_idem]

theorem tokensCount_rstrip (s : List Char) :
    tokensCount (rstrip s) = tokensCount s := by
  rw [rstrip]
  rw [tokensCount_reverse (s.reverse.dropWhile isWsC)]
  rw [show s.reverse.dropWhile isWsC = lstrip s.reverse from rfl]
  rw [tokensCount_lstrip, tokensCount_reverse]

theorem stripDotsPre_cons_dots (t : List Char) :
    stripDotsPre ('.' :: '.' :: '.' :: t) = t := by
  rw [stripDotsPre, if_pos (by simp [List.isPrefixOf])]
  rfl

theorem stripDotsPre_tokens_le (t : List Char) :
    tokensCount (stripDotsPre t) ≤ tokensCount t := by
  rw [stripDotsPre]
  split
  · exact tokensCount_drop_le t 3
  · exact Nat.le_refl _

theorem stripDotsSuf_append_dots (t : List Char) :
    stripDotsSuf (t ++ ['.', '.', '.']) = t := by
  rw [stripDotsSuf, if_pos]
  · rw [show (t ++ ['.', '.', '.']).length - 3 = t.length by simp]
    exact List.take_left t _
  · rw [List.isSuffixOf_iff_suffix]
    exact ⟨t, rfl⟩

theorem stripDotsSuf_tokens_le (t : List Char) :
    tokensCount (stripDotsSuf t) ≤ tokensCount t := by
  rw [stripDotsSuf]
  split
  · exact tokensCount_take_le t _
  · exact Nat.le_refl _

/-! ### Token counting and the word trim of `pySplit` -/

theorem tokensCount_ws_append (wsA X : List Char) (h : ∀ x ∈ wsA, isWsC x = true) :
    tokensCount (wsA ++ X) = tokensCount X := by
  rw [tokensCount_eq (wsA ++ X), tokensCount_eq X,
    List.dropWhile_append_of_pos h]

theorem tokensCount_tok_append (tok X : List Char) (hne : tok ≠ [])
    (hall : ∀ x ∈ tok, isWsC x = false)
    (hX : X.dropWhile notWs = X) :
    tokensCount (tok ++ X) = 1 + tokensCount X := by
  cases tok with
  | nil => exact absurd rfl hne
  | cons a t =>
    have ha : isWsC a = false := hall a (List.mem_cons_self _ _)
    rw [tokensCount_eq, List.cons_append,
      List.dropWhile_cons_of_neg (by simp [ha]), if_neg (by simp),
      ← List.cons_append,
      List.dropWhile_append_of_pos (by
        intro x hx
        simp [notWs, hall x hx]),
      hX]

theorem pySplit_length_le_succ : ∀ (m : Nat) (s : List Char),
    (pySplit s m).length ≤ m + 1
  | 0, s => by
    rw [pySplit]
    split
    · simp
    · simp
  | m + 1, s => by
    rw [pySplit]
    split
    · simp
    · simpa using pySplit_length_le_succ m _

theorem tokensCount_le_of_pySplit_le : ∀ (m : Nat) (s : List Char),
    (pySplit s m).length ≤ m → tokensCount s ≤ m
  | 0, s, h => by
    rw [pySplit] at h
    by_cases hs : s.dropWhile isWsC = []
    · rw [tokensCount_eq, if_pos hs]
    · rw [if_neg hs] at h
      simp at h
  | m + 1, s, h => by
    by_cases hs : s.dropWhile isWsC = []
    · rw [tokensCount_eq, if_pos hs]
      omega
    · rw [pySplit] at h
      rw [if_neg hs] at h
      simp only [List.length_cons] at h
      have ih := tokensCount_le_of_pySplit_le m ((s.dropWhile isWsC).dropWhile notWs)
        (by omega)
      rw [tokensCount_eq, if_neg hs]
      omega

theorem getLastD_default_irrel {α : Type} : ∀ (l : List α) (d₁ d₂ : α), l ≠ [] →
    l.getLastD d₁ = l.getLastD d₂
  | [], _, _, h => absurd rfl h
  | b :: t, d₁, d₂, _ => by rw [List.getLastD_cons, List.getLastD_cons]

theorem takeWhile_ne_nil_of_head {a : Char} {t : List Char} (p : Char → Bool)
    (h : p a = true) : (a :: t).takeWhile p ≠ [] := by
  rw [List.takeWhile_cons_of_pos h]
  simp

theorem dropWhile_take_of_head (p : Char → Bool) : ∀ (l : List Char) (k : Nat),
    (∀ x ∈ l.head?, p x = false) → (l.take k).dropWhile p = l.take k
  | [], _, _ => by simp
  | _ :: _, 0, _ => by simp
  | b :: u, k + 1, hp => by
    rw [List.take_succ_cons]
    exact List.dropWhile_cons_of_neg (by simp [hp b rfl])

/-- If `pySplit s m` used all of its `m + 1` slots, the prefix of `s` that
remains after discarding the final (remainder) element holds at most `m`
tokens. -/
theorem pySplit_last_take : ∀ (m : Nat) (s : List Char),
    (pySplit s m).length = m + 1 →
    tokensCount (s.take (s.length - ((pySplit s m).getLastD []).length)) ≤ m
  | 0, s, h => by
    rw [pySplit] at h ⊢
    by_cases hs : s.dropWhile isWsC = []
    · rw [if_pos hs] at h
      simp at h
    · rw [if_neg hs] at h ⊢
      set wsA := s.takeWhile isWsC with hwsA
      set rest := s.dropWhile isWsC with hrest
      have hdecomp : wsA ++ rest = s := List.takeWhile_append_dropWhile isWsC s
      have hlen : s.length = wsA.length + rest.length := by
        conv_lhs => rw [← hdecomp]
        rw [List.length_append]
      rw [show (([rest]).getLastD []).length = rest.length from rfl]
      rw [show s.length - rest.length = wsA.length by omega]
      rw [← hdecomp, List.take_left]
      rw [tokensCount_eq, if_pos (List.dropWhile_eq_nil_iff.mpr (fun x hx => by
        rw [hwsA] at hx
        exact List.mem_takeWhile_imp hx))]
  | m + 1, s, h => by
    rw [pySplit] at h ⊢
    by_cases hs : s.dropWhile isWsC = []
    · rw [if_pos hs] at h
      simp at h
    · rw [if_neg hs] at h ⊢
      simp only [List.length_cons] at h
      set s1 := s.dropWhile isWsC with hs1
      set wsA := s.takeWhile isWsC with hwsA
      set tok := s1.takeWhile notWs with htok
      set rest := s1.dropWhile notWs with hrest
      have hLne : pySplit rest m ≠ [] := by
        intro hnil
        rw [hnil] at h
        simp at h
      have hlast : ((tok :: pySplit rest m).getLastD []) =
          ((pySplit rest m).getLastD []) := by
        rw [List.getLastD_cons]
        exact getLastD_default_irrel _ _ _ hLne
      rw [hlast]
      have hdecomp1 : wsA ++ s1 = s := List.takeWhile_append_dropWhile isWsC s
      have hdecomp2 : tok ++ rest = s1 := List.takeWhile_append_dropWhile notWs s1
      have hlastlen : ((pySplit rest m).getLastD []).length ≤ rest.length :=
        pySplit_getLastD_length_le rest m
      have hlen1 : s.length = wsA.length + s1.length := by
        conv_lhs => rw [← hdecomp1]
        rw [List.length_append]
      have hlen2 : s1.length = tok.length + rest.length := by
        conv_lhs => rw [← hdecomp2]
        rw [List.length_append]
      rw [show s.length - ((pySplit rest m).getLastD []).length
          = wsA.length + (tok.length +
            (rest.length - ((pySplit rest m).getLastD []).length)) by omega]
      rw [← hdecomp1, List.take_append, ← hdecomp2, List.take_append]
      rw [tokensCount_ws_append _ _ (fun x hx => by
        rw [hwsA] at hx
        exact List.mem_takeWhile_imp hx)]
      have hheadtok : ∀ x ∈ tok, isWsC x = false := by
        intro x hx
        rw [htok] at hx
        have := List.mem_takeWhile_imp hx
        simpa [notWs] using this
      have htokne : tok ≠ [] := by
        rw [htok]
        cases hd : s1 with
        | nil => exact absurd (hs1 ▸ hd) hs
        | cons a t =>
          have hhead := List.head?_dropWhile_not isWsC s
          rw [← hs1, hd] at hhead
          simp only [List.head?_cons] at hhead
          exact takeWhile_ne_nil_of_head notWs (by simp [notWs, hhead])
      have hp : ∀ x ∈ rest.head?, notWs x = false := by
        intro x hx
        have hhead := List.head?_dropWhile_not notWs s1
        rw [← hrest] at hhead
        rw [Option.mem_def] at hx
        rw [hx] at hhead
        exact hhead
      have hXfix := dropWhile_take_of_head notWs rest
        (rest.length - ((pySplit rest m).getLastD []).length) hp
      rw [tokensCount_tok_append _ _ htokne hheadtok hXfix]
      have ih := pySplit_last_take m rest (by omega)
      omega

/-! ### Slice algebra and `pyRsplit` bridging -/

theorem slice_add_drop (c : List Char) (i k j : Nat) :
    slice c (i + k) j = (slice c i j).drop k := by
  rw [slice, slice, List.drop_take, List.drop_drop, Nat.sub_sub]

theorem slice_take_front (c : List Char) (i j' j : Nat) (h : j' ≤ j) :
    slice c i j' = (slice c i j).take (j' - i) := by
  rw [slice, slice, List.take_take]
  congr 1
  omega

theorem pyRsplit_length (s : List Char) (m : Nat) :
    (pyRsplit s m).length = (pySplit s.reverse m).length := by
  rw [pyRsplit]
  simp

theorem pyRsplit_headD (s : List Char) (m : Nat) :
    (pyRsplit s m).headD [] = ((pySplit s.reverse m).getLastD []).reverse := by
  rw [pyRsplit, List.headD_eq_head?_getD, List.head?_reverse, List.getLast?_map,
    List.getLastD_eq_getLast?]
  cases h : (pySplit s.reverse m).getLast? with
  | none => simp
  | some z => simp

/-! ### Token bounds of the raw context windows -/

theorem mkWindow_before_tokens (cb ca mcl : Nat) (content : List Char)
    (r : Nat × Nat × Nat × Nat) :
    tokensCount (slice content (mkWindow cb ca mcl content r).beforeIdx
      (mkWindow cb ca mcl content r).start) ≤ cb := by
  rw [mkWindow]
  dsimp only
  split
  · -- the word trim dropped the leading remainder
    rename_i hgt
    rw [pyRsplit_length] at hgt
    have hfull : (pySplit (slice content (r.1 - mcl) r.1).reverse cb).length = cb + 1 := by
      have := pySplit_length_le_succ cb (slice content (r.1 - mcl) r.1).reverse
      omega
    rw [pyRsplit_headD, List.length_reverse]
    rw [slice_add_drop]
    rw [← tokensCount_reverse ((slice content (r.1 - mcl) r.1).drop
      (((pySplit (slice content (r.1 - mcl) r.1).reverse cb).getLastD []).length))]
    rw [List.reverse_drop]
    have := pySplit_last_take cb (slice content (r.1 - mcl) r.1).reverse hfull
    rw [List.length_reverse] at this
    exact this
  · rename_i hle
    rw [pyRsplit_length] at hle
    have h1 : (pySplit (slice content (r.1 - mcl) r.1).reverse cb).length ≤ cb := by
      omega
    have h2 := tokensCount_le_of_pySplit_le cb _ h1
    rw [tokensCount_reverse] at h2
    exact h2

theorem mkWindow_after_tokens (cb ca mcl : Nat) (content : List Char)
    (r : Nat × Nat × Nat × Nat) :
    tokensCount (slice content (mkWindow cb ca mcl content r).endIdx
      (mkWindow cb ca mcl content r).afterIdx) ≤ ca := by
  rw [mkWindow]
  dsimp only
  have hfraglen : (slice content r.2.2.2 (min content.length (r.2.2.2 + mcl))).length =
      min content.length (r.2.2.2 + mcl) - r.2.2.2 := by
    rw [slice, List.length_take, List.length_drop]
    omega
  split
  · rename_i hgt
    have hfull : (pySplit (slice content r.2.2.2 (min content.length (r.2.2.2 + mcl))) ca).length
        = ca + 1 := by
      have := pySplit_length_le_succ ca (slice content r.2.2.2 (min content.length (r.2.2.2 + mcl)))
      omega
    have hL := pySplit_getLastD_length_le
      (slice content r.2.2.2 (min content.length (r.2.2.2 + mcl))) ca
    rw [slice_take_front content r.2.2.2 _ (min content.length (r.2.2.2 + mcl))
      (by omega)]
    have := pySplit_last_take ca (slice content r.2.2.2 (min content.length (r.2.2.2 + mcl))) hfull
    rw [hfraglen] at this hL
    rw [show min content.length (r.2.2.2 + mcl) -
        ((pySplit (slice content r.2.2.2 (min content.length (r.2.2.2 + mcl))) ca).getLastD
          []).length - r.2.2.2 =
      (min content.length (r.2.2.2 + mcl) - r.2.2.2) -
        ((pySplit (slice content r.2.2.2 (min content.length (r.2.2.2 + mcl))) ca).getLastD
          []).length by omega]
    exact this
  · rename_i hle
    exact tokensCount_le_of_pySplit_le ca _ (by omega)

/-! ### Element-wise effect of the clamps -/

theorem clampStarts_getD_zero (d : CandIdx) (l : List CandIdx) :
    (clampStarts l).getD 0 d = l.getD 0 d := by
  cases l with
  | nil => rfl
  | cons first rest => rfl

theorem clampStarts_getD_succ (d : CandIdx) (l : List CandIdx) (i : Nat)
    (h : i + 1 < l.length) :
    (clampStarts l).getD (i + 1) d =
      { l.getD (i + 1) d with
        beforeIdx := max ((l.getD (i + 1) d).beforeIdx) ((l.getD i d).endIdx) } := by
  cases l with
  | nil => simp at h
  | cons first rest =>
    rw [clampStarts]
    simp only [List.getD_cons_succ]
    rw [clampStartsAux_getD d rest first i (by simpa using h)]
    cases i with
    | zero => simp
    | succ k => simp

theorem clampEnds_getD (d : CandIdx) :
    ∀ (l : List CandIdx) (j : Nat), j < l.length →
      (clampEnds l).getD j d =
        if j + 1 < l.length then
          { l.getD j d with
            afterIdx := min ((l.getD j d).afterIdx) ((l.getD (j + 1) d).beforeIdx) }
        else l.getD j d
  | [], j, h => by simp at h
  | [x], 0, _ => by simp [clampEnds]
  | [x], j + 1, h => by simp at h
  | x :: y :: rest, 0, _ => by
    rw [clampEnds]
    simp [List.length_cons]
  | x :: y :: rest, j + 1, h => by
    rw [clampEnds]
    simp only [List.getD_cons_succ]
    rw [clampEnds_getD d (y :: rest) j (by simpa using h)]
    simp only [List.length_cons]
    by_cases hc : j + 1 < rest.length + 1
    · rw [if_pos hc, if_pos (by omega)]
      simp [List.getD_cons_succ]
    · rw [if_neg hc, if_neg (by omega)]

theorem clampedIdxs_getD_vs_raw (cb ca mcl : Nat) (content : List Char) (i : Nat)
    (h : i < (rawIdxs cb ca mcl content).length) :
    ((clampedIdxs cb ca mcl content).getD i dfltCand).start =
        ((rawIdxs cb ca mcl content).getD i dfltCand).start ∧
      ((clampedIdxs cb ca mcl content).getD i dfltCand).endIdx =
        ((rawIdxs cb ca mcl content).getD i dfltCand).endIdx ∧
      ((rawIdxs cb ca mcl content).getD i dfltCand).beforeIdx ≤
        ((clampedIdxs cb ca mcl content).getD i dfltCand).beforeIdx ∧
      ((clampedIdxs cb ca mcl content).getD i dfltCand).afterIdx ≤
        ((rawIdxs cb ca mcl content).getD i dfltCand).afterIdx := by
  have hm : i < (clampStarts (rawIdxs cb ca mcl content)).length := by
    rw [clampStarts_length]
    exact h
  rw [clampedIdxs, clampEnds_getD dfltCand _ i hm]
  have hmid : (clampStarts (rawIdxs cb ca mcl content)).getD i dfltCand =
        (rawIdxs cb ca mcl content).getD i dfltCand ∨
      (clampStarts (rawIdxs cb ca mcl content)).getD i dfltCand =
        { (rawIdxs cb ca mcl content).getD i dfltCand with
          beforeIdx := max (((rawIdxs cb ca mcl content).getD i dfltCand).beforeIdx)
            (((rawIdxs cb ca mcl content).getD (i - 1) dfltCand).endIdx) } := by
    cases i with
    | zero => exact Or.inl (clampStarts_getD_zero dfltCand _)
    | succ k =>
      right
      rw [clampStarts_getD_succ dfltCand _ k h]
      simp
  by_cases hc : i + 1 < (clampStarts (rawIdxs cb ca mcl content)).length
  · rw [if_pos hc]
    rcases hmid with heq | heq <;> rw [heq] <;>
      exact ⟨rfl, rfl, by simp, Nat.min_le_left _ _⟩
  · rw [if_neg hc]
    rcases hmid with heq | heq <;> rw [heq] <;>
      exact ⟨rfl, rfl, by simp, Nat.le_refl _⟩

/-- Token bounds for the clamped windows: the clamps only shrink each window,
and the raw windows obey the word limits. -/
theorem clampedIdxs_tokens (cb ca mcl : Nat) (content : List Char) (i : Nat)
    (h : i < (clampedIdxs cb ca mcl content).length) :
    tokensCount (slice content ((clampedIdxs cb ca mcl content).getD i dfltCand).beforeIdx
        ((clampedIdxs cb ca mcl content).getD i dfltCand).start) ≤ cb ∧
      tokensCount (slice content ((clampedIdxs cb ca mcl content).getD i dfltCand).endIdx
        ((clampedIdxs cb ca mcl content).getD i dfltCand).afterIdx) ≤ ca := by
  have hlen : (clampedIdxs cb ca mcl content).length =
      (rawIdxs cb ca mcl content).length := by
    rw [clampedIdxs, clampEnds_length, clampStarts_length]
  have hr : i < (rawIdxs cb ca mcl content).length := by omega
  obtain ⟨hs, he, hb, ha⟩ := clampedIdxs_getD_vs_raw cb ca mcl content i hr
  have hraw : (rawIdxs cb ca mcl content).getD i dfltCand =
      mkWindow cb ca mcl content ((findRollExprIndices content).get
        ⟨i, by simpa [rawIdxs] using hr⟩) := by
    rw [rawIdxs] at hr ⊢
    rw [List.getD_eq_get _ _ hr, List.get_map]
  have hwfc := clampedIdxs_wf cb ca mcl content
    ((clampedIdxs cb ca mcl content).getD i dfltCand)
    (by
      rw [List.getD_eq_get _ _ h]
      exact List.get_mem _ i h)
  obtain ⟨hw1, hw2, hw3, hw4⟩ := hwfc
  constructor
  · -- before window
    have hbt := mkWindow_before_tokens cb ca mcl content
      ((findRollExprIndices content).get ⟨i, by simpa [rawIdxs] using hr⟩)
    rw [← hraw] at hbt
    rw [show ((clampedIdxs cb ca mcl content).getD i dfltCand).beforeIdx =
        ((rawIdxs cb ca mcl content).getD i dfltCand).beforeIdx +
          (((clampedIdxs cb ca mcl content).getD i dfltCand).beforeIdx -
            ((rawIdxs cb ca mcl content).getD i dfltCand).beforeIdx) by omega]
    rw [slice_add_drop, hs]
    exact le_trans (tokensCount_drop_le _ _) hbt
  · -- after window
    have hat := mkWindow_after_tokens cb ca mcl content
      ((findRollExprIndices content).get ⟨i, by simpa [rawIdxs] using hr⟩)
    rw [← hraw] at hat
    rw [← he] at hat
    rw [slice_take_front content
      (((clampedIdxs cb ca mcl content).getD i dfltCand).endIdx)
      (((clampedIdxs cb ca mcl content).getD i dfltCand).afterIdx)
      (((rawIdxs cb ca mcl content).getD i dfltCand).afterIdx) ha]
    exact le_trans (tokensCount_take_le _ _) hat

/-! ### Claim C4: word limits of the produced context texts -/

/-- C4: every extracted triple's before-context holds at most
`contextBeforeWords` whitespace-separated tokens once the ellipsis marker is
removed, and the after-context at most `contextAfterWords`. -/
theorem c4_word_trim (cb ca mcl : Nat) (content : List Char)
    (trip : List Char × List Char × List Char)
    (h : trip ∈ findInlineExprsWith cb ca mcl content) :
    tokensCount (stripDotsPre trip.2.1) ≤ cb ∧
      tokensCount (stripDotsSuf trip.2.2) ≤ ca := by
  rw [findInlineExprsWith] at h
  obtain ⟨w, hw, rfl⟩ := List.mem_map.mp h
  obtain ⟨⟨i, hi⟩, hg⟩ := List.mem_iff_get.mp hw
  have hw' : w = (clampedIdxs cb ca mcl content).getD i dfltCand := by
    rw [List.getD_eq_get _ _ hi, hg]
  obtain ⟨hbt, hat⟩ := clampedIdxs_tokens cb ca mcl content i hi
  rw [← hw'] at hbt hat
  rw [windowTriple]
  dsimp only
  constructor
  · split
    · rw [stripDotsPre_cons_dots]
      calc tokensCount (lstrip (slice content w.beforeIdx w.start))
          = tokensCount (slice content w.beforeIdx w.start) := tokensCount_lstrip _
        _ ≤ cb := hbt
    · refine le_trans (stripDotsPre_tokens_le _) ?_
      calc tokensCount (lstrip (slice content w.beforeIdx w.start))
          = tokensCount (slice content w.beforeIdx w.start) := tokensCount_lstrip _
        _ ≤ cb := hbt
  · split
    · rw [show ('.' :: '.' :: '.' :: ([] : List Char)) = ['.', '.', '.'] from rfl] at *
      rw [stripDotsSuf_append_dots]
      calc tokensCount (rstrip (slice content w.endIdx w.afterIdx))
          = tokensCount (slice content w.endIdx w.afterIdx) := tokensCount_rstrip _
        _ ≤ ca := hat
    · refine le_trans (stripDotsSuf_tokens_le _) ?_
      calc tokensCount (rstrip (slice content w.endIdx w.afterIdx))
          = tokensCount (slice content w.endIdx w.afterIdx) := tokensCount_rstrip _
        _ ≤ ca := hat

theorem c4_witness :
    (("1d4".toList, "...two three four five six ".toList, " after stuff...".toList) ∈
        findInlineExprsWith 5 2 128 ("one two three four five six [[1d4]] after stuff and more".toList)) ∧
      tokensCount (stripDotsPre ("...two three four five six ".toList)) ≤ 5 ∧
      tokensCount (stripDotsSuf (" after stuff...".toList)) ≤ 2 :=
  ⟨by decide,
    (c4_word_trim 5 2 128 ("one two three four five six [[1d4]] after stuff and more".toList)
      ("1d4".toList, "...two three four five six ".toList, " after stuff...".toList) (by decide)).1,
    (c4_word_trim 5 2 128 ("one two three four five six [[1d4]] after stuff and more".toList)
      ("1d4".toList, "...two three four five six ".toList, " after stuff...".toList) (by decide)).2⟩

/-! ### Exact locator output on texts of well-formed pairs -/

theorem strFindFrom_eq_some {s pat : List Char} : ∀ (fuel e tgt : Nat),
    e ≤ tgt → tgt < e + fuel →
    (∀ j, e ≤ j → j < tgt → occursAt pat s j = false) →
    occursAt pat s tgt = true →
    strFindFrom s pat e fuel = some tgt
  | 0, _, _, h1, h2, _, _ => absurd h2 (by omega)
  | fuel + 1, e, tgt, h1, h2, hmin, htgt => by
    rw [strFindFrom]
    by_cases he : e = tgt
    · subst he
      rw [if_pos htgt]
    · have hne := hmin e (Nat.le_refl _) (by omega)
      rw [if_neg (by simp [hne])]
      exact strFindFrom_eq_some fuel (e + 1) tgt (by omega) (by omega)
        (fun j hj1 hj2 => hmin j (by omega) hj2) htgt

theorem strFind_eq_some {s pat : List Char} (e tgt : Nat) (h1 : e ≤ tgt)
    (h2 : tgt ≤ s.length)
    (hmin : ∀ j, e ≤ j → j < tgt → occursAt pat s j = false)
    (htgt : occursAt pat s tgt = true) : strFind s pat e = some tgt := by
  rw [strFind]
  exact strFindFrom_eq_some _ e tgt h1 (by omega) hmin htgt

theorem strFindFrom_eq_none {s pat : List Char} : ∀ (fuel e : Nat),
    (∀ j, e ≤ j → occursAt pat s j = false) → strFindFrom s pat e fuel = none
  | 0, _, _ => rfl
  | fuel + 1, e, h => by
    rw [strFindFrom, if_neg (by simp [h e (Nat.le_refl _)])]
    exact strFindFrom_eq_none fuel (e + 1) (fun j hj => h j (by omega))

theorem strFind_eq_none {s pat : List Char} (e : Nat)
    (h : ∀ j, e ≤ j → occursAt pat s j = false) : strFind s pat e = none :=
  strFindFrom_eq_none _ e h

theorem occursAt_head {a : Char} {pat s : List Char} {i : Nat}
    (h : occursAt (a :: pat) s i = true) : s[i]? = some a := by
  rw [occursAt, List.isPrefixOf_iff_prefix] at h
  obtain ⟨t, ht⟩ := h
  have h0 : (s.drop i)[0]? = some a := by rw [← ht]; simp
  rw [List.getElem?_drop] at h0
  simpa using h0

theorem occursAt_ne_head {a : Char} {pat s : List Char} {i : Nat}
    (h : s[i]? ≠ some a) : occursAt (a :: pat) s i = false := by
  cases hb : occursAt (a :: pat) s i with
  | false => rfl
  | true => exact absurd (occursAt_head hb) h

/-- In the region covered by a character-restricted prefix of the remaining
text, a pattern headed by an excluded character cannot occur. -/
theorem no_occurs_in_region {c0 : Char} {pat content pre X : List Char} {e : Nat}
    (hdrop : content.drop e = pre ++ X) (hpre : c0 ∉ pre) (j : Nat)
    (h1 : e ≤ j) (h2 : j < e + pre.length) :
    occursAt (c0 :: pat) content j = false := by
  apply occursAt_ne_head
  intro hc
  have hj : content[j]? = pre[j - e]? := by
    have hh : (content.drop e)[j - e]? = content[e + (j - e)]? := List.getElem?_drop _ _ _
    rw [show e + (j - e) = j by omega] at hh
    rw [← hh, hdrop]
    exact List.getElem?_append_left (by omega)
  rw [hj] at hc
  exact hpre (List.getElem?_mem hc)

/-- Once the whole remaining text avoids a character, a pattern headed by it
never occurs at or after the cut. -/
theorem no_occurs_from {c0 : Char} {pat content pre : List Char} {e : Nat}
    (hdrop : content.drop e = pre) (hpre : c0 ∉ pre) (j : Nat) (h1 : e ≤ j) :
    occursAt (c0 :: pat) content j = false := by
  apply occursAt_ne_head
  intro hc
  have hj : content[j]? = pre[j - e]? := by
    have hh : (content.drop e)[j - e]? = content[e + (j - e)]? := List.getElem?_drop _ _ _
    rw [show e + (j - e) = j by omega] at hh
    rw [← hh, hdrop]
  rw [hj] at hc
  exact hpre (List.getElem?_mem hc)

theorem occursAt_of_drop {pat content rest : List Char} {tgt : Nat}
    (h : content.drop tgt = pat ++ rest) : occursAt pat content tgt = true := by
  rw [occursAt, h, List.isPrefixOf_iff_prefix]
  exact List.prefix_append _ _

theorem mkPairs_length_ge : ∀ (ps : List (List Char × List Char)),
    ps.length ≤ (mkPairs ps).length
  | [] => Nat.le_refl _
  | (e, g) :: rest => by
    rw [mkPairs]
    simp only [List.length_cons, List.length_append]
    have := mkPairs_length_ge rest
    omega

theorem expectedRanges_length : ∀ (ps : List (List Char × List Char)) (base : Nat),
    (expectedRanges base ps).length = ps.length
  | [], _ => rfl
  | (e, g) :: rest, base => by
    rw [expectedRanges]
    simp [expectedRanges_length rest]

theorem expectedRanges_chain : ∀ (ps : List (List Char × List Char)) (base : Nat),
    List.Chain' (fun a b => a.2.2.2 ≤ b.1 ∧ a.1 < b.1) (expectedRanges base ps)
  | [], _ => List.chain'_nil
  | [(e1, g1)], base => by
    rw [expectedRanges, expectedRanges]
    exact List.chain'_singleton _
  | (e1, g1) :: (e2, g2) :: rest, base => by
    rw [expectedRanges, expectedRanges]
    rw [List.chain'_cons]
    constructor
    · constructor
      · simp
        try omega
      · simp
        try omega
    · rw [← expectedRanges]
      exact expectedRanges_chain ((e2, g2) :: rest) _

/-- Exact run of the locator loop over a remaining text
`pre ++ mkPairs ps ++ dangSuffix dang` with `pre` bracket-free: it reports
exactly the expected range of every pair and nothing for the dangling
opener. -/
theorem findExprsAux_mkPairs :
    ∀ (ps : List (List Char × List Char)) (content pre : List Char)
      (dang : Option (List Char)) (e fuel : Nat),
      (∀ p ∈ ps, ']' ∉ p.1 ∧ '[' ∉ p.2) →
      '[' ∉ pre →
      (∀ t ∈ dang, ']' ∉ t) →
      content.drop e = pre ++ (mkPairs ps ++ dangSuffix dang) →
      e ≤ content.length →
      ps.length < fuel →
      findExprsAux content fuel e = expectedRanges (e + pre.length) ps
  | [], content, pre, dang, e, fuel, _, hpre, hdang, hdrop, he, hfuel => by
    cases fuel with
    | zero => omega
    | succ f =>
      rw [findExprsAux]
      rw [show openPat = ['[', '['] from rfl, show closePat = [']', ']'] from rfl]
      cases dang with
      | none =>
        rw [show mkPairs [] ++ dangSuffix none = [] from rfl, List.append_nil] at hdrop
        rw [strFind_eq_none e (fun j hj =>
          no_occurs_from hdrop hpre j hj)]
        rfl
      | some t =>
        rw [show mkPairs [] ++ dangSuffix (some t) = '[' :: '[' :: t from rfl] at hdrop
        have hlen : (content.drop e).length = pre.length + (2 + t.length) := by
          rw [hdrop]
          simp
          try omega
        rw [List.length_drop] at hlen
        have htgt : content.drop (e + pre.length) = '[' :: '[' :: t := by
          rw [← List.drop_drop, hdrop, List.drop_left]
        have hopen : strFind content ['[', '['] e = some (e + pre.length) :=
          strFind_eq_some e (e + pre.length) (by omega) (by omega)
            (fun j hj1 hj2 => no_occurs_in_region hdrop hpre j hj1 (by omega))
            (occursAt_of_drop (show content.drop (e + pre.length) =
              ['[', '['] ++ t from htgt))
        have hclosenone : strFind content [']', ']'] (e + pre.length) = none :=
          strFind_eq_none (e + pre.length) (fun j hj =>
            no_occurs_from htgt (by
              intro hmem
              rcases List.mem_cons.mp hmem with h1 | hmem1
              · exact absurd h1 (by decide)
              rcases List.mem_cons.mp hmem1 with h2 | hmem2
              · exact absurd h2 (by decide)
              · exact hdang t (by rfl) hmem2) j hj)
        simp only [hopen, hclosenone]
        rfl
  | (ex, g) :: rest, content, pre, dang, e, fuel, hps, hpre, hdang, hdrop, he, hfuel => by
    cases fuel with
    | zero => omega
    | succ f =>
      obtain ⟨hex, hg⟩ := hps (ex, g) (List.mem_cons_self _ _)
      have hrest : ∀ p ∈ rest, ']' ∉ p.1 ∧ '[' ∉ p.2 :=
        fun p hp => hps p (List.mem_cons_of_mem _ hp)
      rw [show mkPairs ((ex, g) :: rest) =
        '[' :: '[' :: (ex ++ ']' :: ']' :: (g ++ mkPairs rest)) from rfl] at hdrop
      have hdrop' : content.drop e = pre ++
          ('[' :: '[' :: (ex ++ (']' :: ']' :: (g ++ (mkPairs rest ++ dangSuffix dang))))) := by
        rw [hdrop]
        simp [List.append_assoc]
      have hlen : (content.drop e).length =
          pre.length + (2 + (ex.length + (2 + (g.length +
            ((mkPairs rest).length + (dangSuffix dang).length))))) := by
        rw [hdrop']
        simp
        try omega
      rw [List.length_drop] at hlen
      have hst : content.drop (e + pre.length) =
          '[' :: '[' :: (ex ++ (']' :: ']' :: (g ++ (mkPairs rest ++ dangSuffix dang)))) := by
        rw [← List.drop_drop, hdrop', List.drop_left]
      have hst2 : content.drop (e + pre.length + 2) =
          ex ++ (']' :: ']' :: (g ++ (mkPairs rest ++ dangSuffix dang))) := by
        rw [← List.drop_drop, hst]
        rfl
      have hie : content.drop (e + pre.length + 2 + ex.length) =
          ']' :: ']' :: (g ++ (mkPairs rest ++ dangSuffix dang)) := by
        rw [← List.drop_drop, hst2, List.drop_left]
      rw [findExprsAux]
      rw [show openPat = ['[', '['] from rfl, show closePat = [']', ']'] from rfl]
      have hopen : strFind content ['[', '['] e = some (e + pre.length) :=
        strFind_eq_some e (e + pre.length) (by omega) (by omega)
          (fun j hj1 hj2 => no_occurs_in_region hdrop' hpre j hj1 (by omega))
          (occursAt_of_drop (show content.drop (e + pre.length) = ['[', '['] ++
            (ex ++ (']' :: ']' :: (g ++ (mkPairs rest ++ dangSuffix dang)))) from hst))
      have hclose : strFind content [']', ']'] (e + pre.length) =
          some (e + pre.length + 2 + ex.length) := by
        apply strFind_eq_some _ _ (by omega) (by omega)
        · intro j hj1 hj2
          refine no_occurs_in_region (show content.drop (e + pre.length) =
            ('[' :: '[' :: ex) ++
              (']' :: ']' :: (g ++ (mkPairs rest ++ dangSuffix dang))) from ?_) ?_ j hj1 ?_
          · rw [hst]
            simp
          · intro hmem
            rcases List.mem_cons.mp hmem with h1 | hmem1
            · exact absurd h1 (by decide)
            rcases List.mem_cons.mp hmem1 with h2 | hmem2
            · exact absurd h2 (by decide)
            · exact hex hmem2
          · simp only [List.length_cons]
            omega
        · exact occursAt_of_drop (show content.drop (e + pre.length + 2 + ex.length) =
            [']', ']'] ++ (g ++ (mkPairs rest ++ dangSuffix dang)) from hie)
      simp only [hopen, hclose]
      have hrec := findExprsAux_mkPairs rest content (']' :: ']' :: g) dang
        (e + pre.length + 2 + ex.length) f hrest
        (by
          intro hmem
          rcases List.mem_cons.mp hmem with h1 | hmem1
          · exact absurd h1 (by decide)
          rcases List.mem_cons.mp hmem1 with h2 | hmem2
          · exact absurd h2 (by decide)
          · exact hg hmem2)
        hdang
        (by
          rw [hie]
          simp [List.append_assoc])
        (by omega)
        (by simpa using hfuel)
      rw [hrec]
      rw [show e + pre.length + 2 + ex.length + (']' :: ']' :: g).length =
        e + pre.length + 4 + ex.length + g.length by
          simp only [List.length_cons]
          omega]
      rw [expectedRanges]
      simp only [List.cons.injEq, Prod.mk.injEq, and_true, true_and]
      omega

/-! ### Claim C3: the locator on texts with `k` disjoint pairs -/

/-- C3: a text of `k` disjoint well-formed `[[...]]` pairs (bracket-free
prose between them, no `]]` inside an expression), optionally ending in a
dangling `[[` opener, yields exactly `k` candidate ranges, in strictly
left-to-right order, and nothing for the dangling opener. -/
theorem c3_locator (g0 : List Char) (ps : List (List Char × List Char))
    (dang : Option (List Char))
    (h0 : '[' ∉ g0) (hps : ∀ p ∈ ps, ']' ∉ p.1 ∧ '[' ∉ p.2)
    (hd : ∀ t ∈ dang, ']' ∉ t) :
    (findRollExprIndices (mkText g0 ps dang)).length = ps.length ∧
      List.Chain' (fun a b => a.2.2.2 ≤ b.1 ∧ a.1 < b.1)
        (findRollExprIndices (mkText g0 ps dang)) := by
  have hmain : findRollExprIndices (mkText g0 ps dang) = expectedRanges g0.length ps := by
    rw [findRollExprIndices]
    have hdrop : (mkText g0 ps dang).drop 0 =
        g0 ++ (mkPairs ps ++ dangSuffix dang) := by
      rw [List.drop_zero, mkText, List.append_assoc]
    have hfuel : ps.length < (mkText g0 ps dang).length + 1 := by
      have h1 := mkPairs_length_ge ps
      have h2 : (mkText g0 ps dang).length =
          g0.length + ((mkPairs ps).length + (dangSuffix dang).length) := by
        rw [mkText]
        simp
      omega
    have := findExprsAux_mkPairs ps (mkText g0 ps dang) g0 dang 0
      ((mkText g0 ps dang).length + 1) hps h0 hd hdrop (by omega) hfuel
    simpa using this
  rw [hmain]
  exact ⟨expectedRanges_length ps g0.length, expectedRanges_chain ps g0.length⟩

theorem c3_witness :
    ('[' ∉ "x ".toList) ∧
      (∀ p ∈ [("1d6".toList, " and ".toList), ("2d4+1".toList, "".toList)],
        ']' ∉ p.1 ∧ '[' ∉ p.2) ∧
      (∀ t ∈ some " t".toList, ']' ∉ t) ∧
      (findRollExprIndices (mkText ("x ".toList)
        [("1d6".toList, " and ".toList), ("2d4+1".toList, "".toList)]
        (some " t".toList))).length = 2 ∧
      List.Chain' (fun a b => a.2.2.2 ≤ b.1 ∧ a.1 < b.1)
        (findRollExprIndices (mkText ("x ".toList)
          [("1d6".toList, " and ".toList), ("2d4+1".toList, "".toList)]
          (some " t".toList))) :=
  ⟨by decide, by decide, by decide,
    (c3_locator ("x ".toList)
      [("1d6".toList, " and ".toList), ("2d4+1".toList, "".toList)]
      (some " t".toList) (by decide) (by decide) (by decide)).1,
    (c3_locator ("x ".toList)
      [("1d6".toList, " and ".toList), ("2d4+1".toList, "".toList)]
      (some " t".toList) (by decide) (by decide) (by decide)).2⟩

/-! ### Claim C10: the `0/0` easter egg -/

/-- C10: on the exact input `"0/0"` the roll command replies with the fixed
easter-egg message and returns without rolling, deleting the triggering
message or updating statistics. -/
theorem c10_easter_egg (mention : List Char)
    (render : List Char → AdvType → List Char) (total : List Char → AdvType → Int) :
    rollCmd mention ("0/0".toList) render total =
      { sent := easterEggMsg, deletedMessage := false, statsIncremented := false,
        engineInvoked := false } := by
  rw [rollCmd, if_pos rfl]

end Avrae
